import Mathlib

/-!
# Verification of the fglib inference core

A shallow embedding of the fglib library (random-variable algebra in
`rv.py`, edges in `edges.py`, graph assembly in `graphs.py`, node message
operators in `nodes.py` and the tree scheduler in `inference.py`),
together with proofs and refutations of the specification claims.

Numpy `float64` tensors are modelled as rational-valued tensors: a shape
(list of axis sizes) plus a total function from multi-indices to `ℚ`.
Only entries at indices below the shape are meaningful; all numpy
operations used by the library are translated index-faithfully,
including broadcasting, `expand_dims`, `tile`, axis sums/maxima in
C-order, and flat `argmax` (first occurrence of the maximum).
-/

namespace Fglib

/-- Numpy broadcasting of a multi-index against a shape: an axis of size 1
matches any index by reading position 0; other axes read the index as is. -/
def broadcastIx (s ix : List ℕ) : List ℕ :=
  List.zipWith (fun sd i => if sd = 1 then 0 else i) s ix

/-- Numpy broadcast of two shapes of equal rank: a size-1 axis adopts the
other operand's size, otherwise the left size stands (the inputs the
library produces are always broadcast-compatible). -/
def bshape (s t : List ℕ) : List ℕ :=
  List.zipWith (fun x y => if x = 1 then y else x) s t

/-- All multi-indices of a shape, enumerated in C-order (last axis
fastest), exactly the order in which numpy flattens an array. -/
def allIndices : List ℕ → List (List ℕ)
  | [] => [[]]
  | s :: tl => (List.range s).flatMap fun i => (allIndices tl).map fun ix => i :: ix

/-- Index of the first occurrence of the maximum of a list, as
`np.argmax` computes it on the flattened array (0 on an empty list). -/
def argmaxAux : ℕ → ℚ → ℕ → List ℚ → ℕ
  | bi, _, _, [] => bi
  | bi, bv, i, x :: tl => if bv < x then argmaxAux i x (i + 1) tl else argmaxAux bi bv (i + 1) tl

/-- Embedding of `np.argmax` on a flattened value list: first index attaining the maximum. -/
def argmaxList : List ℚ → ℕ
  | [] => 0
  | x :: tl => argmaxAux 0 x 1 tl

/-- Maximum of a nonempty list of rationals (`np.amax` on the flattened
values); 0 on the empty list, which the library never produces. -/
def listMax : List ℚ → ℚ
  | [] => 0
  | x :: tl => tl.foldl max x

/-- Embedding of `np.sum(f, axis=ax)` on a tensor of shape `s`: the axis is erased from
the shape and the entries along it are added. -/
def npSumAxis (s : List ℕ) (f : List ℕ → ℚ) (ax : ℕ) : List ℕ × (List ℕ → ℚ) :=
  (s.eraseIdx ax, fun jx => ((List.range (s.getD ax 0)).map fun i => f (List.insertIdx ax i jx)).sum)

/-- Embedding of `np.amax(f, axis=ax)`: like `npSumAxis` with maximum instead of sum. -/
def npMaxAxis (s : List ℕ) (f : List ℕ → ℚ) (ax : ℕ) : List ℕ × (List ℕ → ℚ) :=
  (s.eraseIdx ax, fun jx => listMax ((List.range (s.getD ax 0)).map fun i => f (List.insertIdx ax i jx)))

/-- Embedding of `np.sum(f, axis=tuple(axes))` for an ascending list of axes: summing a
set of axes jointly equals erasing them one at a time from the highest
position down, which leaves the lower positions untouched. -/
def npSumAxes (s : List ℕ) (f : List ℕ → ℚ) (axes : List ℕ) : List ℕ × (List ℕ → ℚ) :=
  axes.reverse.foldl (fun p ax => npSumAxis p.1 p.2 ax) (s, f)

/-- Embedding of `np.amax(f, axis=tuple(axes))` for an ascending list of axes. -/
def npMaxAxes (s : List ℕ) (f : List ℕ → ℚ) (axes : List ℕ) : List ℕ × (List ℕ → ℚ) :=
  axes.reverse.foldl (fun p ax => npMaxAxis p.1 p.2 ax) (s, f)

/-- Embedding of `np.sum(f)` over the whole tensor. -/
def npTotal (s : List ℕ) (f : List ℕ → ℚ) : ℚ :=
  ((allIndices s).map f).sum

variable {V N M A : Type}

/-- Embedding of `rv.Discrete` (rv.py:90-129): a tensor `pmf` over `shape` together
with the tuple `dim` of variable nodes naming its axes.  The constructor
check `np.ndim(pmf) == len(args)` becomes the hypothesis
`dim.length = shape.length` carried by the well-formedness predicates. -/
structure Discrete (V : Type) where
  shape : List ℕ
  pmf : List ℕ → ℚ
  dim : List V

/-- Entry of a tensor at a broadcast multi-index of full rank. -/
def Discrete.bval (a : Discrete V) (ix : List ℕ) : ℚ :=
  a.pmf (broadcastIx a.shape ix)

/-- Embedding of `Discrete.unity` (rv.py:131-147): `np.ones((1,) * n)` over the given dims. -/
def Discrete.unity (dims : List V) : Discrete V :=
  ⟨List.replicate dims.length 1, fun _ => 1, dims⟩

/-- The list `diff` of `Discrete._expand` (rv.py:267): positions of the
target dims missing from `self.dim`, in ascending order. -/
def diffList [DecidableEq V] (selfdim dims : List V) : List ℕ :=
  (dims.enum.filter fun p => ¬ p.2 ∈ selfdim).map Prod.fst

/-- The `reps` array of `Discrete._expand` (rv.py:264-272): 1 everywhere,
`states[d]` at each position `d` of `diff`. -/
def repsList [DecidableEq V] (selfdim dims : List V) (states : List ℕ) : List ℕ :=
  (List.range dims.length).map fun d => if d ∈ diffList selfdim dims then states.getD d 1 else 1

/-- Embedding of `Discrete._expand` (rv.py:255-276): insert a singleton axis at every
missing target position (`np.expand_dims`, ascending), then `np.tile`
with `reps`, and replace `dim` by the target dims.  `np.tile` reads the
source at the index reduced modulo the pre-tile shape. -/
def Discrete.expand [DecidableEq V] (a : Discrete V) (dims : List V) (states : List ℕ) :
    Discrete V :=
  let diff := diffList a.dim dims
  let reps := repsList a.dim dims states
  let pre := diff.foldl
    (fun (p : List ℕ × (List ℕ → ℚ)) d => (List.insertIdx d 1 p.1, fun ix => p.2 (ix.eraseIdx d)))
    (a.shape, a.pmf)
  ⟨List.zipWith (· * ·) reps pre.1,
   fun ix => pre.2 (List.zipWith (fun i sd => i % sd) ix pre.1),
   dims⟩

/-- Embedding of `Discrete.__mul__` (rv.py:189-207) including its side effect: the
operand with the shorter `dim` tuple is expanded *in place* before the
elementwise broadcast product.  The triple returned is
(result, self after the call, other after the call). -/
def Discrete.mulFull [DecidableEq V] (a b : Discrete V) :
    Discrete V × Discrete V × Discrete V :=
  let a2 := if a.dim.length < b.dim.length then a.expand b.dim b.shape else a
  let b2 := if b.dim.length < a.dim.length then b.expand a.dim a.shape else b
  (⟨bshape a2.shape b2.shape, fun ix => a2.bval ix * b2.bval ix, a2.dim⟩, a2, b2)

/-- The value `Discrete.__mul__` returns. -/
def Discrete.mul [DecidableEq V] (a b : Discrete V) : Discrete V :=
  (a.mulFull b).1

/-- The axis tuple of `Discrete.marginalize`/`maximize` (rv.py:299,323):
`tuple(idx for idx, d in enumerate(self.dim) if d in dims)`. -/
def axisList [DecidableEq V] (adim dims : List V) : List ℕ :=
  (adim.enum.filter fun p => p.2 ∈ dims).map Prod.fst

/-- Embedding of `Discrete.marginalize` (rv.py:283-305): sum the pmf along the axes
whose dim is in `dims` (dims not present are silently skipped by the
filter), keep the remaining dims in order, optionally divide by the sum. -/
def Discrete.marginalize [DecidableEq V] (a : Discrete V) (dims : List V)
    (normalize : Bool := true) : Discrete V :=
  let summed := npSumAxes a.shape a.pmf (axisList a.dim dims)
  let pmf2 := if normalize then fun ix => summed.2 ix / npTotal summed.1 summed.2 else summed.2
  ⟨summed.1, pmf2, a.dim.filter fun d => ¬ d ∈ dims⟩

/-- Embedding of `Discrete.maximize` (rv.py:307-329): as `marginalize` with `np.amax`. -/
def Discrete.maximize [DecidableEq V] (a : Discrete V) (dims : List V)
    (normalize : Bool := true) : Discrete V :=
  let maxed := npMaxAxes a.shape a.pmf (axisList a.dim dims)
  let pmf2 := if normalize then fun ix => maxed.2 ix / npTotal maxed.1 maxed.2 else maxed.2
  ⟨maxed.1, pmf2, a.dim.filter fun d => ¬ d ∈ dims⟩

/-- Embedding of `Discrete.normalize` (rv.py:278-281): divide the pmf by its sum. -/
def Discrete.normalize [DecidableEq V] (a : Discrete V) : Discrete V :=
  ⟨a.shape, fun ix => a.pmf ix / npTotal a.shape a.pmf, a.dim⟩

/-- Embedding of `Discrete.argmax` (rv.py:331-347).  With `dim = None`:
`np.unravel_index(pmf.argmax(), shape)`, the C-order multi-index of the
first global maximum.  With a dim `v`: `self.marginalize(v)` — which sums
the axis of `v` *away* — followed by `np.argmax` of the result. -/
def Discrete.argmax [DecidableEq V] (a : Discrete V) (dim : Option V) : List ℕ ⊕ ℕ :=
  match dim with
  | none => Sum.inl ((allIndices a.shape).getD (argmaxList ((allIndices a.shape).map a.pmf)) [])
  | some v =>
      let m := a.marginalize [v] true
      Sum.inr (argmaxList ((allIndices m.shape).map m.pmf))

/-- Embedding of `Discrete.log` (rv.py:349-357).  The body evaluates `self.value`, but
class `Discrete` defines no attribute `value` (only `pmf` and `dim`,
rv.py:149-155), so every call raises `AttributeError` before any
logarithm is taken. -/
def Discrete.log (_ : Discrete V) : Except String (Discrete V) :=
  .error "AttributeError: Discrete object has no attribute value"

/-- Embedding of `Discrete.__eq__` (rv.py:245-253): `np.allclose` on the (broadcast)
pmfs — exact equality in the rational model — and equality of the dim
tuples. -/
def Discrete.eqRV (a b : Discrete V) : Prop :=
  (∀ ix ∈ allIndices (bshape a.shape b.shape), a.bval ix = b.bval ix) ∧ a.dim = b.dim

/-- Embedding of `rv.Gaussian` (rv.py:360-410) in the information form it stores:
precision matrix `W`, precision-mean `Wm` (entries beyond `n` are
irrelevant), and the dim tuple. -/
structure Gaussian (V : Type) where
  n : ℕ
  W : ℕ → ℕ → ℚ
  Wm : ℕ → ℚ
  dim : List V

/-- Embedding of `Gaussian.unity` (rv.py:412-428): mean 0 and covariance ∞·I, whose
precision matrix is the zero matrix and precision-mean the zero vector —
the information form the float code arrives at via `inv(diag(inf))`. -/
def Gaussian.unity (dims : List V) : Gaussian V :=
  ⟨dims.length, fun _ _ => 0, fun _ => 0, dims⟩

/-- Embedding of `Gaussian.__mul__` (rv.py:499-511): add precision matrices and
precision-mean vectors; the result keeps `self.dim`. -/
def Gaussian.mul (a b : Gaussian V) : Gaussian V :=
  ⟨a.n, fun i j => a.W i j + b.W i j, fun i => a.Wm i + b.Wm i, a.dim⟩

/-- Embedding of `Gaussian.__eq__` (rv.py:549-559): `np.allclose` on `W` and `Wm`
(entries within the dimension) and equality of the dim tuples. -/
def Gaussian.eqRV (a b : Gaussian V) : Prop :=
  a.n = b.n ∧ (∀ i j, i < a.n → j < a.n → a.W i j = b.W i j) ∧
    (∀ i, i < a.n → a.Wm i = b.Wm i) ∧ a.dim = b.dim

/-- Embedding of `edges.Edge.__init__` (edges.py:24-39): indices
`{snode: 0, tnode: 1}` and the message matrix `[[None, init], [init,
None]]`; we store the two off-diagonal slots.  `logarithmic` starts
`False`. -/
structure Edge (N : Type) (M : Type) where
  snode : N
  tnode : N
  m01 : Option M
  m10 : Option M
  logarithmic : Bool

/-- Construction of an `Edge` as `edges.Edge(snode, tnode, init)` does:
both directed slots receive `init` (whose default is `None`). -/
def Edge.make (s t : N) (init : Option M) : Edge N M :=
  ⟨s, t, init, init, false⟩

/-- Embedding of `Edge.get_message` (edges.py:50-52):
`message[index[snode]][index[tnode]]`. -/
def Edge.get_message [DecidableEq N] (e : Edge N M) (s t : N) : Option M :=
  if s = e.snode ∧ t = e.tnode then e.m01
  else if s = e.tnode ∧ t = e.snode then e.m10
  else none

/-- Lookup in a Python dict literal, `d[key]`: raises `KeyError` when the
key is absent. -/
def dictGet (attrs : List (String × A)) (k : String) : Except String A :=
  match attrs.find? fun p => p.1 = k with
  | some p => .ok p.2
  | none => .error ("KeyError: " ++ k)

/-- Embedding of `FactorGraph.set_edge` (graphs.py:100-113): the graph is
its edge-attribute table; `add_edge(snode, tnode, msg=init)` in both
directions stores, for each direction, an attribute dict holding exactly
the key `msg`. -/
def FactorGraph.set_edge [DecidableEq N] (g : N → N → List (String × Option M))
    (snode tnode : N) (init : Option M) : N → N → List (String × Option M) :=
  fun a b =>
    if (a = snode ∧ b = tnode) ∨ (a = tnode ∧ b = snode) then [("msg", init)] else g a b

/-- Embedding of `FactorGraph.set_edges` (graphs.py:115-123): `set_edge`
for each pair of the list, with the default `init=None`. -/
def FactorGraph.set_edges [DecidableEq N] (g : N → N → List (String × Option M))
    (es : List (N × N)) : N → N → List (String × Option M) :=
  es.foldl (fun g e => FactorGraph.set_edge g e.1 e.2 none) g

/-- Attribute accesses performed by `VNode.belief` (nodes.py:124-144): it
iterates over the neighbors (raising `StopIteration` on `next` if there
are none) and evaluates `self.graph[n][self]['object']` for each
neighbor `n` before any message is combined; the per-edge attribute
dicts of the neighbors are `attrs`. -/
def VNode.belief_lookups (nbrs : List N) (attrs : N → List (String × A)) :
    Except String (List A) :=
  match nbrs with
  | [] => .error "StopIteration"
  | _ :: _ => nbrs.mapM fun n => dictGet (attrs n) "object"

/-- Attribute accesses performed by `VNode.spa` (nodes.py:163-175): when
the node is observed it returns `self.init` touching no edge; otherwise
it evaluates `self.graph[n][self]['object']` for every neighbor `n`
other than the target. -/
def VNode.spa_lookups (observed : Bool) (nbrsExceptTarget : List N)
    (attrs : N → List (String × A)) : Except String (List A) :=
  if observed then .ok []
  else nbrsExceptTarget.mapM fun n => dictGet (attrs n) "object"

/-- Embedding of `FNode.mpa` (nodes.py:275-291) as a function of the
factor and the incoming messages: `inc` pairs each neighbor other than
the target with its current message toward this factor node, in the
iteration order of `self.neighbors(tnode)`.  The first loop multiplies
all incoming messages into the local factor; the second records
`msg.argmax(n)` in `record[tnode][n]` and maximizes `n` out.  Returns
the pairs recorded in `record[tnode]` and the outgoing message. -/
def FNode.mpa [DecidableEq V] (factor : Discrete V) (inc : List (Discrete V × V)) :
    List (V × (List ℕ ⊕ ℕ)) × Discrete V :=
  let m := inc.foldl (fun m p => m.mul p.1) factor
  inc.foldl
    (fun (st : List (V × (List ℕ ⊕ ℕ)) × Discrete V) p =>
      (st.1 ++ [(p.2, st.2.argmax (some p.2))], st.2.maximize [p.2] false))
    ([], m)

/-- Embedding of `VNode.argmax` (nodes.py:156-161) as a function of the
node's belief `b` (the product of its incoming messages, dim `(self,)`):
it returns `b.argmax(self)`. -/
def VNode.argmax [DecidableEq V] (self : V) (b : Discrete V) : List ℕ ⊕ ℕ :=
  b.argmax (some self)

/-!
## Tree-structured factor graphs

A tree factor graph rooted at a query variable node, as
`belief_propagation` (inference.py:22-51) sees it: the DFS from the
query node orients every edge away from it, V-nodes and F-nodes
alternate (the graph is bipartite), and each node's non-parent neighbors
are its children in discovery order.  `VTree` is a variable node with
the factor subtrees hanging off it; `FTree` is a factor node (its local
factor tensor) with the variable subtrees hanging off it; the forests
keep the neighbor iteration order.
-/

mutual
inductive VTree (V : Type) : Type where
  | mk : V → FForest V → VTree V
inductive FForest (V : Type) : Type where
  | nil : FForest V
  | cons : FTree V → FForest V → FForest V
inductive FTree (V : Type) : Type where
  | mk : Discrete V → VForest V → FTree V
inductive VForest (V : Type) : Type where
  | nil : VForest V
  | cons : VTree V → VForest V → VForest V
end

/-- Variable at the root of a variable subtree. -/
def VTree.rootVar : VTree V → V
  | .mk v _ => v

/-- Root variables of a forest of variable subtrees: the non-target
neighbors of a factor node, in iteration order. -/
def VForest.roots : VForest V → List V
  | .nil => []
  | .cons t ts => t.rootVar :: ts.roots

mutual
def VTree.vars : VTree V → List V
  | .mk v fs => v :: fs.vars
def FForest.vars : FForest V → List V
  | .nil => []
  | .cons t ts => t.vars ++ ts.vars
def FTree.vars : FTree V → List V
  | .mk _ vs => vs.vars
def VForest.vars : VForest V → List V
  | .nil => []
  | .cons t ts => t.vars ++ ts.vars
end

mutual
def VTree.factors : VTree V → List (Discrete V)
  | .mk _ fs => fs.factors
def FForest.factors : FForest V → List (Discrete V)
  | .nil => []
  | .cons t ts => t.factors ++ ts.factors
def FTree.factors : FTree V → List (Discrete V)
  | .mk fct vs => fct :: vs.factors
def VForest.factors : VForest V → List (Discrete V)
  | .nil => []
  | .cons t ts => t.factors ++ ts.factors
end

/-- Summation loop of `FNode.spa` (nodes.py:269-271): marginalize out the
root variable of each non-target neighbor subtree, in iteration order,
with `normalize=False`. -/
def margFold [DecidableEq V] : Discrete V → VForest V → Discrete V
  | m, .nil => m
  | m, .cons t ts => margFold (m.marginalize [t.rootVar] false) ts

/-!
The forward ("messages in forward phase", inference.py:41-43) pass of
`belief_propagation` computes, for every DFS edge `(parent, child)` in
reverse discovery order, the message `child.spa(parent)` and stores it on
the directed edge child → parent.  Reverse discovery order processes all
edges below `child` before the edge to `parent`, so each `spa` call finds
exactly the messages from its own children already stored: the forward
phase is the structural recursion below.  (The in-place `_expand` that
`__mul__` applies to a stored rank-1 message replaces it by a broadcast-
equal tensor, so re-reading an already-expanded message in a later
product yields the same numbers as the fresh message used here.)  The
backward pass writes only parent → child slots, which
`query_node.belief()` never reads, so it cannot change the result.
-/

mutual
/-- Embedding of `VNode.spa` (nodes.py:163-175) for an unobserved node on
the rooted tree: start from `self.init = rv_type.unity(self)` and
multiply the messages from all non-parent neighbors. -/
def VTree.spaMsg [DecidableEq V] : VTree V → Discrete V
  | .mk v fs => FForest.spaFold (Discrete.unity [v]) fs

/-- Product loop `msg *= incoming` over a forest of factor children. -/
def FForest.spaFold [DecidableEq V] : Discrete V → FForest V → Discrete V
  | m, .nil => m
  | m, .cons t ts => FForest.spaFold (m.mul t.spaMsg) ts

/-- Embedding of `FNode.spa` (nodes.py:260-273) on the rooted tree: start
from the local factor, multiply the messages of all non-parent
neighbors, then marginalize each of those variables out. -/
def FTree.spaMsg [DecidableEq V] : FTree V → Discrete V
  | .mk fct vs => margFold (VForest.spaFold fct vs) vs

/-- Product loop `msg *= incoming` over a forest of variable children. -/
def VForest.spaFold [DecidableEq V] : Discrete V → VForest V → Discrete V
  | m, .nil => m
  | m, .cons t ts => VForest.spaFold (m.mul t.spaMsg) ts
end

/-- Embedding of `VNode.belief` (nodes.py:124-144) at the query node
after the forward phase: take the message of the first neighbor and
multiply in the messages of the remaining neighbors.  On a node with no
neighbors the source raises `StopIteration`; that case is excluded by
hypothesis and mapped to the unity element here. -/
def VTree.belief [DecidableEq V] : VTree V → Discrete V
  | .mk v .nil => Discrete.unity [v]
  | .mk _ (.cons t ts) => FForest.spaFold t.spaMsg ts

/-- Embedding of `inference.sum_product` = `belief_propagation`
(inference.py:22-63) on a tree rooted at the query node: run the two
message phases and return `query_node.belief()` (normalized). -/
def VTree.sum_product [DecidableEq V] (t : VTree V) : Discrete V :=
  t.belief.normalize

/-!
## Assignment semantics

The reference joint distribution: an assignment maps every variable to a
state index, a `Discrete` denotes a function of the assignment by
reading its tensor at the indices of its dims, and the joint is the
product of all factor denotations.  `sumOver` sums a function over all
states of a list of variables.
-/

/-- State of tensor `a` at the indices an assignment `σ` gives to the
dims of `a` (broadcast against the shape, as numpy reads it). -/
def Discrete.denote (a : Discrete V) (σ : V → ℕ) : ℚ :=
  a.bval (a.dim.map σ)

/-- Product of the denotations of a list of factors: the (unnormalized)
joint distribution they define. -/
def jointDenote (fs : List (Discrete V)) (σ : V → ℕ) : ℚ :=
  (fs.map fun f => f.denote σ).prod

/-- Sum of `g` over all states of the variables `vs` (state counts `S`),
holding the rest of the assignment fixed. -/
def sumOver [DecidableEq V] (S : V → ℕ) : List V → ((V → ℕ) → ℚ) → (V → ℕ) → ℚ
  | [], g, σ => g σ
  | v :: tl, g, σ =>
      ((List.range (S v)).map fun i => sumOver S tl g (Function.update σ v i)).sum

/-!
## Well-formedness

Structural well-formedness of a rooted tree factor graph with state
counts `S`: every factor tensor has the full shape its dims prescribe,
and its dim tuple is a permutation of its adjacent variables (the parent
variable and the roots of its child subtrees), as invariant 2 of the
data model requires.
-/

mutual
def VTree.wfB [DecidableEq V] (S : V → ℕ) : VTree V → Bool
  | .mk v fs => fs.wfB S v
def FForest.wfB [DecidableEq V] (S : V → ℕ) : FForest V → V → Bool
  | .nil, _ => true
  | .cons t ts, p => t.wfB S p && ts.wfB S p
def FTree.wfB [DecidableEq V] (S : V → ℕ) : FTree V → V → Bool
  | .mk fct vs, p =>
      decide (fct.shape = fct.dim.map S) && fct.dim.isPerm (p :: vs.roots) && vs.wfB S
def VForest.wfB [DecidableEq V] (S : V → ℕ) : VForest V → Bool
  | .nil => true
  | .cons t ts => t.wfB S && ts.wfB S
end

/-- Variables strictly below the root of a variable subtree. -/
def VTree.belowVars : VTree V → List V
  | .mk _ fs => fs.vars

/-- Variables strictly below the roots of a forest of variable subtrees. -/
def VForest.belowVars : VForest V → List V
  | .nil => []
  | .cons t ts => t.belowVars ++ ts.belowVars

/-- Closed form proved for the shape `Discrete._expand` produces: walk
the target dims; a dim already present consumes the next axis of the
source shape, a missing dim takes the target size at its position. -/
def expandShapeSpec [DecidableEq V] : List V → List V → List ℕ → List ℕ → List ℕ
  | [], _, _, _ => []
  | d :: dt, adim, ash, states =>
      if d ∈ adim then ash.headD 1 :: expandShapeSpec dt adim ash.tail states.tail
      else states.headD 1 :: expandShapeSpec dt adim ash states.tail

/-- Closed form proved for the entries of `Discrete._expand`: the source
tensor is read at the sub-index of the positions whose dim it already
has, each component reduced modulo the source axis size (the `np.tile`
wrap-around). -/
def extractIx [DecidableEq V] : List V → List V → List ℕ → List ℕ → List ℕ
  | [], _, _, _ => []
  | d :: dt, adim, ash, ix =>
      if d ∈ adim then (ix.headD 0 % ash.headD 1) :: extractIx dt adim ash.tail ix.tail
      else extractIx dt adim ash ix.tail

/-- The shape part of the `expand_dims` loop of `_expand`. -/
def shapeFold (ds : List ℕ) (s : List ℕ) : List ℕ :=
  ds.foldl (fun s d => List.insertIdx d 1 s) s

/-- The entry part of the `expand_dims` loop of `_expand`. -/
def funcFold (ds : List ℕ) (f : List ℕ → ℚ) : List ℕ → ℚ :=
  ds.foldl (fun f d => fun ix => f (ix.eraseIdx d)) f

/-- Predicate that a function of assignments does not depend on the state
of variable `v`. -/
def Insensitive [DecidableEq V] (g : (V → ℕ) → ℚ) (v : V) : Prop :=
  ∀ σ i, g (Function.update σ v i) = g σ

/-- Predicate that every dim of every listed tensor lies in `s`. -/
def dimsWithin (fs : List (Discrete V)) (s : List V) : Prop :=
  ∀ f ∈ fs, ∀ d ∈ f.dim, d ∈ s

/-- Model of the semantics the spec asserts for `Discrete.argmax(v)`
(spec §4.1.1): retain the axis of `v`, sum out all other dims, and take
the argmax of the resulting marginal over `v`.  Written for comparison
with the source embedding `Discrete.argmax`. -/
def Discrete.argmaxSpecModel [DecidableEq V] (a : Discrete V) (v : V) : ℕ :=
  let m := a.marginalize (a.dim.filter fun d => ¬ d = v) true
  argmaxList ((allIndices m.shape).map m.pmf)

/-!
## Concrete instances

Small concrete graphs and tensors (variables are natural numbers) used
to instantiate the general theorems and to separate the embedded
behaviour from the specified one on explicit inputs.
-/

/-- Tensor of the pair factor `f(x0, x1)` with values `[[0.1, 0.2], [0.3, 0.4]]`. -/
def c1P : List ℕ → ℚ
  | [0, 0] => 1/10
  | [0, 1] => 2/10
  | [1, 0] => 3/10
  | [1, 1] => 4/10
  | _ => 0

/-- Pair factor over the variables `0` and `1`, each with two states. -/
def c1Fct : Discrete ℕ := ⟨[2, 2], c1P, [0, 1]⟩

/-- The pair graph `0 — f — 1` rooted at the query variable `0`. -/
def c1Tree : VTree ℕ :=
  VTree.mk 0 (FForest.cons
    (FTree.mk c1Fct (VForest.cons (VTree.mk 1 FForest.nil) VForest.nil)) FForest.nil)

/-- Tensor `[[0.1, 0.4], [0.3, 0.2]]` read as `f(x1, x0)`: its global
maximum `0.4` sits at `x1 = 0, x0 = 1`. -/
def c3P : List ℕ → ℚ
  | [0, 0] => 1/10
  | [0, 1] => 4/10
  | [1, 0] => 3/10
  | [1, 1] => 2/10
  | _ => 0

/-- Pair factor with dim tuple `(1, 0)`: axis 0 is variable `1`, axis 1
is the query variable `0`. -/
def c3Fct : Discrete ℕ := ⟨[2, 2], c3P, [1, 0]⟩

/-- Assignment `max_product` computes on the `c3Fct` pair graph rooted
at variable `0`: variable `0` from `VNode.argmax`, variable `1` copied
from `record` by the back-tracking loop `track[k] = v.record[u][k]`. -/
def c3TrackCode : ℕ → ℕ := fun v => if v = 1 then 1 else 0

/-- The true MAP assignment of the `c3Fct` pair graph: `x1 = 0, x0 = 1`. -/
def c3TrackMap : ℕ → ℕ := fun v => if v = 1 then 0 else 1

/-- Tensor `[[0.4, 0], [0.25, 0.3]]` over `(x0, x1)`: the marginal of
`x0` is `[0.4, 0.55]` (mode `1`) while summing `x0` out leaves
`[0.65, 0.3]` (flat argmax `0`). -/
def c4P : List ℕ → ℚ
  | [0, 0] => 2/5
  | [0, 1] => 0
  | [1, 0] => 1/4
  | [1, 1] => 3/10
  | _ => 0

/-- Pair tensor over the variables `0` and `1` separating the two
readings of `argmax(v)`. -/
def c4A : Discrete ℕ := ⟨[2, 2], c4P, [0, 1]⟩

/-- All-ones pair tensor over the variables `0` and `1`, for probing
`marginalize` with a dim it does not carry. -/
def c5A : Discrete ℕ := ⟨[2, 2], fun _ => 1, [0, 1]⟩

/-- Tensor `[0.6, 0.4]` over variable `0`. -/
def c6P : List ℕ → ℚ
  | [0] => 3/5
  | [1] => 2/5
  | _ => 0

/-- One-dimensional Discrete over variable `0`. -/
def c6A : Discrete ℕ := ⟨[2], c6P, [0]⟩

/-- One-dimensional Gaussian over variable `0` in information form. -/
def c6G : Gaussian ℕ := ⟨1, fun _ _ => 2, fun _ => 1, [0]⟩

/-- All-ones pair tensor with the longer dim tuple `(1, 0)`, the other
multiplication operand next to `Discrete.unity [0]`. -/
def c9B : Discrete ℕ := ⟨[2, 2], fun _ => 1, [1, 0]⟩

/-- Belief `[0.25, 0.75]` whose maximum lies at index `1`. -/
def c10P : List ℕ → ℚ
  | [0] => 1/4
  | [1] => 3/4
  | _ => 0

/-- One-dimensional belief of the variable node `5` with mode `1`. -/
def c10B : Discrete ℕ := ⟨[2], c10P, [5]⟩

/-! ## List and broadcasting toolkit -/

theorem zipWith_map_same {X α β γ : Type} (f : α → β → γ) (g : X → α) (h : X → β)
    (l : List X) : List.zipWith f (l.map g) (l.map h) = l.map fun x => f (g x) (h x) := by
  induction l with
  | nil => rfl
  | cons x t ih => simp [ih]

theorem insertIdx_length_append {α : Type} (l₁ l₂ : List α) (x : α) :
    List.insertIdx l₁.length x (l₁ ++ l₂) = l₁ ++ x :: l₂ := by
  induction l₁ with
  | nil => rfl
  | cons y t ih => simpa using ih

theorem eraseIdx_length_append {α : Type} (l₁ l₂ : List α) (x : α) :
    (l₁ ++ x :: l₂).eraseIdx l₁.length = l₁ ++ l₂ := by
  induction l₁ with
  | nil => rfl
  | cons y t ih => simpa using ih

theorem getD_length_append {α : Type} (l₁ l₂ : List α) (x d : α) :
    (l₁ ++ x :: l₂).getD l₁.length d = x := by
  induction l₁ with
  | nil => rfl
  | cons y t ih => simpa using ih

theorem broadcastIx_map_valid (S σ : V → ℕ) (l : List V) (hσ : ∀ v, σ v < S v) :
    broadcastIx (l.map S) (l.map σ) = l.map σ := by
  induction l with
  | nil => rfl
  | cons x t ih =>
      have hx := hσ x
      simp only [broadcastIx, List.map_cons, List.zipWith_cons_cons] at *
      refine congrArg₂ _ ?_ ih
      by_cases h1 : S x = 1
      · simp only [h1, if_true]
        omega
      · simp [h1]

theorem flatMap_singleton_map {α β : Type} (l : List α) (g : α → β) :
    (l.flatMap fun i => [g i]) = l.map g := by
  induction l with
  | nil => rfl
  | cons x t ih => simp [ih]

theorem allIndices_singleton (n : ℕ) :
    allIndices [n] = (List.range n).map fun i => [i] := by
  simp only [allIndices]
  simpa using flatMap_singleton_map (List.range n) fun i => [i]

theorem npTotal_rank1 (n : ℕ) (f : List ℕ → ℚ) :
    npTotal [n] f = ((List.range n).map fun i => f [i]).sum := by
  simp [npTotal, allIndices_singleton, List.map_map, Function.comp_def]

theorem mul_rank1 [DecidableEq V] (a b : Discrete V) (v : V) (sa sb : ℕ)
    (had : a.dim = [v]) (hbd : b.dim = [v]) (has : a.shape = [sa]) (hbs : b.shape = [sb]) :
    a.mul b = ⟨[if sa = 1 then sb else sa], fun ix => a.bval ix * b.bval ix, [v]⟩ := by
  simp [Discrete.mul, Discrete.mulFull, had, hbd, has, hbs, bshape]

theorem mul_rank1_denote [DecidableEq V] (S : V → ℕ) (a b : Discrete V) (v : V) (sa sb : ℕ)
    (had : a.dim = [v]) (hbd : b.dim = [v]) (has : a.shape = [sa]) (hbs : b.shape = [sb])
    (hsa : sa = S v ∨ sa = 1) (hsb : sb = S v ∨ sb = 1)
    (σ : V → ℕ) :
    (a.mul b).denote σ = a.denote σ * b.denote σ := by
  rw [mul_rank1 a b v sa sb had hbd has hbs]
  simp only [Discrete.denote, Discrete.bval, had, hbd, has, hbs, List.map_cons, List.map_nil,
    broadcastIx, List.zipWith_cons_cons, List.zipWith_nil_right, List.zipWith_nil_left]
  by_cases h1 : sa = 1
  · by_cases h2 : sb = 1
    · simp [h1, h2]
    · simp [h1, h2]
  · have hsa2 : sa = S v := by tauto
    by_cases h2 : sb = 1
    · simp [h1, h2]
    · have hsb2 : sb = S v := by tauto
      simp [h1, h2]

/-! ## Position lists: `enumerate`-based index tuples -/

theorem enumFrom_filter_fst_succ {B : Type} (g : B → Bool) (l : List B) :
    ∀ n, ((List.enumFrom (n + 1) l).filter fun p => g p.2).map Prod.fst
      = (((List.enumFrom n l).filter fun p => g p.2).map Prod.fst).map (· + 1) := by
  induction l with
  | nil => intro n; rfl
  | cons x t ih =>
      intro n
      by_cases hx : g x
      · simp only [List.enumFrom, List.filter_cons, hx, if_true, List.map_cons]
        exact congrArg _ (ih (n + 1))
      · simp only [List.enumFrom, List.filter_cons, hx, if_false, Bool.false_eq_true]
        exact ih (n + 1)

theorem enum_filter_fst_cons {B : Type} (g : B → Bool) (x : B) (t : List B) :
    ((List.enum (x :: t)).filter fun p => g p.2).map Prod.fst
      = (if g x then [0] else [])
        ++ (((List.enum t).filter fun p => g p.2).map Prod.fst).map (· + 1) := by
  by_cases hx : g x
  · simp only [List.enum, List.enumFrom, List.filter_cons, hx, if_true, List.map_cons]
    exact congrArg _ (enumFrom_filter_fst_succ g t 0)
  · simp only [List.enum, List.enumFrom, List.filter_cons, hx, if_false, Bool.false_eq_true,
      List.nil_append]
    exact enumFrom_filter_fst_succ g t 0

theorem diffList_nil [DecidableEq V] (sd : List V) : diffList sd ([] : List V) = [] := rfl

theorem diffList_cons [DecidableEq V] (sd : List V) (x : V) (dt : List V) :
    diffList sd (x :: dt)
      = (if x ∈ sd then [] else [0]) ++ (diffList sd dt).map (· + 1) := by
  unfold diffList
  have h := enum_filter_fst_cons (fun d => decide (¬ d ∈ sd)) x dt
  by_cases hx : x ∈ sd <;> simpa [hx] using h

theorem axisList_nil [DecidableEq V] (dims : List V) : axisList ([] : List V) dims = [] := rfl

theorem axisList_cons [DecidableEq V] (x : V) (dt dims : List V) :
    axisList (x :: dt) dims
      = (if x ∈ dims then [0] else []) ++ (axisList dt dims).map (· + 1) := by
  unfold axisList
  have h := enum_filter_fst_cons (fun d => decide (d ∈ dims)) x dt
  by_cases hx : x ∈ dims <;> simpa [hx] using h

theorem axisList_append [DecidableEq V] (l₁ l₂ dims : List V) :
    axisList (l₁ ++ l₂) dims
      = axisList l₁ dims ++ (axisList l₂ dims).map (· + l₁.length) := by
  induction l₁ with
  | nil => simp [axisList_nil]
  | cons x t ih =>
      rw [List.cons_append, axisList_cons, axisList_cons, ih]
      by_cases hx : x ∈ dims <;>
        simp [hx, List.map_map, Function.comp_def, Nat.add_assoc, Nat.add_comm 1 t.length]

theorem axisList_not_mem [DecidableEq V] (l dims : List V) (h : ∀ x ∈ l, ¬ x ∈ dims) :
    axisList l dims = [] := by
  induction l with
  | nil => exact axisList_nil dims
  | cons x t ih =>
      rw [axisList_cons]
      have hx : ¬ x ∈ dims := h x (List.mem_cons_self x t)
      simp [hx, ih fun y hy => h y (List.mem_cons_of_mem x hy)]

theorem axisList_singleton_mid [DecidableEq V] (D₁ D₂ : List V) (v : V)
    (h₁ : ¬ v ∈ D₁) (h₂ : ¬ v ∈ D₂) :
    axisList (D₁ ++ v :: D₂) [v] = [D₁.length] := by
  have hD₁ : ∀ x ∈ D₁, ¬ x ∈ ([v] : List V) := by
    intro x hx
    simp only [List.mem_singleton]
    intro hxv
    exact h₁ (hxv ▸ hx)
  have hD₂ : ∀ x ∈ D₂, ¬ x ∈ ([v] : List V) := by
    intro x hx
    simp only [List.mem_singleton]
    intro hxv
    exact h₂ (hxv ▸ hx)
  rw [axisList_append, axisList_cons, axisList_not_mem D₁ [v] hD₁,
    axisList_not_mem D₂ [v] hD₂]
  simp

/-! ## Closed form of `Discrete._expand` -/

theorem foldl_insert_erase_split :
    ∀ (ds : List ℕ) (s : List ℕ) (f : List ℕ → ℚ),
      ds.foldl
        (fun (p : List ℕ × (List ℕ → ℚ)) d =>
          (List.insertIdx d 1 p.1, fun ix => p.2 (ix.eraseIdx d))) (s, f)
      = (shapeFold ds s, funcFold ds f)
  | [], _, _ => rfl
  | d :: dt, s, f => foldl_insert_erase_split dt (List.insertIdx d 1 s) fun ix => f (ix.eraseIdx d)

theorem expand_unfold [DecidableEq V] (a : Discrete V) (dims : List V) (states : List ℕ) :
    a.expand dims states
      = ⟨List.zipWith (· * ·) (repsList a.dim dims states)
          (shapeFold (diffList a.dim dims) a.shape),
        fun ix => funcFold (diffList a.dim dims) a.pmf
          (List.zipWith (fun i sd => i % sd) ix (shapeFold (diffList a.dim dims) a.shape)),
        dims⟩ := by
  simp only [Discrete.expand, foldl_insert_erase_split]

theorem shapeFold_cons (d : ℕ) (dt : List ℕ) (s : List ℕ) :
    shapeFold (d :: dt) s = shapeFold dt (List.insertIdx d 1 s) := rfl

theorem shapeFold_shift (ds : List ℕ) :
    ∀ (x : ℕ) (s : List ℕ), shapeFold (ds.map (· + 1)) (x :: s) = x :: shapeFold ds s := by
  induction ds with
  | nil => intro x s; rfl
  | cons d dt ih =>
      intro x s
      rw [List.map_cons, shapeFold_cons, List.insertIdx_succ_cons, ih, shapeFold_cons]

theorem funcFold_cons (d : ℕ) (dt : List ℕ) (f : List ℕ → ℚ) :
    funcFold (d :: dt) f = funcFold dt fun ix => f (ix.eraseIdx d) := rfl

theorem funcFold_shift (ds : List ℕ) :
    ∀ (f : List ℕ → ℚ) (i : ℕ) (jx : List ℕ),
      funcFold (ds.map (· + 1)) f (i :: jx) = funcFold ds (fun kx => f (i :: kx)) jx := by
  induction ds with
  | nil => intro f i jx; rfl
  | cons d dt ih =>
      intro f i jx
      rw [List.map_cons, funcFold_cons, funcFold_cons]
      rw [ih (fun ix => f (ix.eraseIdx (d + 1))) i jx]
      congr 1

theorem repsList_cons [DecidableEq V] (sd : List V) (x : V) (dt : List V) (s : ℕ)
    (st : List ℕ) :
    repsList sd (x :: dt) (s :: st) = (if x ∈ sd then 1 else s) :: repsList sd dt st := by
  unfold repsList
  rw [List.length_cons, List.range_succ_eq_map]
  rw [List.map_cons, List.map_map]
  congr 1
  · rw [diffList_cons]
    by_cases hx : x ∈ sd <;> simp [hx]
  · apply List.map_congr_left
    intro d _
    have hmem : (d + 1) ∈ diffList sd (x :: dt) ↔ d ∈ diffList sd dt := by
      rw [diffList_cons]
      by_cases hx : x ∈ sd <;> simp [hx]
    simp only [Function.comp_def]
    by_cases hd : d ∈ diffList sd dt
    · simp [hmem.mpr hd, hd]
    · have hnd : ¬ (d + 1) ∈ diffList sd (x :: dt) := fun hc => hd (hmem.mp hc)
      simp [hnd, hd]

theorem diffList_congr [DecidableEq V] (sd₁ sd₂ dims : List V)
    (h : ∀ x ∈ dims, x ∈ sd₁ ↔ x ∈ sd₂) : diffList sd₁ dims = diffList sd₂ dims := by
  induction dims with
  | nil => rfl
  | cons x dt ih =>
      rw [diffList_cons, diffList_cons,
        ih fun y hy => h y (List.mem_cons_of_mem x hy)]
      have hx := h x (List.mem_cons_self x dt)
      by_cases hx1 : x ∈ sd₁
      · simp [hx1, hx.mp hx1]
      · have hx2 : ¬ x ∈ sd₂ := fun hc => hx1 (hx.mpr hc)
        simp [hx1, hx2]

theorem repsList_congr [DecidableEq V] (sd₁ sd₂ dims : List V) (states : List ℕ)
    (h : ∀ x ∈ dims, x ∈ sd₁ ↔ x ∈ sd₂) :
    repsList sd₁ dims states = repsList sd₂ dims states := by
  unfold repsList
  rw [diffList_congr sd₁ sd₂ dims h]

theorem expandShapeSpec_congr [DecidableEq V] (sd₁ sd₂ dims : List V) :
    ∀ (ash states : List ℕ), (∀ x ∈ dims, x ∈ sd₁ ↔ x ∈ sd₂) →
      expandShapeSpec dims sd₁ ash states = expandShapeSpec dims sd₂ ash states := by
  induction dims with
  | nil => intro ash states _; rfl
  | cons x dt ih =>
      intro ash states h
      have hx := h x (List.mem_cons_self x dt)
      have ht := fun y hy => h y (List.mem_cons_of_mem x hy)
      by_cases hx1 : x ∈ sd₁
      · simp only [expandShapeSpec, if_pos hx1, if_pos (hx.mp hx1)]
        rw [ih _ _ ht]
      · simp only [expandShapeSpec, if_neg hx1, if_neg fun hc => hx1 (hx.mpr hc)]
        rw [ih _ _ ht]

theorem extractIx_congr [DecidableEq V] (sd₁ sd₂ dims : List V) :
    ∀ (ash ix : List ℕ), (∀ x ∈ dims, x ∈ sd₁ ↔ x ∈ sd₂) →
      extractIx dims sd₁ ash ix = extractIx dims sd₂ ash ix := by
  induction dims with
  | nil => intro ash ix _; rfl
  | cons x dt ih =>
      intro ash ix h
      have hx := h x (List.mem_cons_self x dt)
      have ht := fun y hy => h y (List.mem_cons_of_mem x hy)
      by_cases hx1 : x ∈ sd₁
      · simp only [extractIx, if_pos hx1, if_pos (hx.mp hx1)]
        rw [ih _ _ ht]
      · simp only [extractIx, if_neg hx1, if_neg fun hc => hx1 (hx.mpr hc)]
        rw [ih _ _ ht]

theorem expand_shape [DecidableEq V] (a : Discrete V) (dims : List V) (states : List ℕ) :
    (a.expand dims states).shape
      = List.zipWith (· * ·) (repsList a.dim dims states)
          (shapeFold (diffList a.dim dims) a.shape) := by
  rw [expand_unfold]

theorem expand_pmf [DecidableEq V] (a : Discrete V) (dims : List V) (states ix : List ℕ) :
    (a.expand dims states).pmf ix
      = funcFold (diffList a.dim dims) a.pmf
          (List.zipWith (fun i sd => i % sd) ix (shapeFold (diffList a.dim dims) a.shape)) := by
  rw [expand_unfold]

theorem expand_dim [DecidableEq V] (a : Discrete V) (dims : List V) (states : List ℕ) :
    (a.expand dims states).dim = dims := by
  rw [expand_unfold]

theorem expand_spec [DecidableEq V] (dims : List V) :
    ∀ (adim : List V) (ash : List ℕ) (f : List ℕ → ℚ) (states : List ℕ),
      dims.Nodup → dims.filter (fun x => decide (x ∈ adim)) = adim →
      adim.length = ash.length → states.length = dims.length →
      (Discrete.expand ⟨ash, f, adim⟩ dims states).shape = expandShapeSpec dims adim ash states
      ∧ ∀ ix, ix.length = dims.length →
          (Discrete.expand ⟨ash, f, adim⟩ dims states).pmf ix
            = f (extractIx dims adim ash ix) := by
  induction dims with
  | nil =>
      intro adim ash f states _ hsub hlen _
      have hadim : adim = [] := by simpa using hsub.symm
      subst hadim
      have hash : ash = [] := by
        cases ash with
        | nil => rfl
        | cons y t => simp at hlen
      subst hash
      refine ⟨?_, ?_⟩
      · rw [expand_shape]
        rfl
      · intro ix hix
        have hix0 : ix = [] := List.length_eq_zero.mp hix
        subst hix0
        rw [expand_pmf]
        rfl
  | cons d dt ih =>
      intro adim ash f states hnd hsub hlen hslen
      obtain ⟨s, st, rfl⟩ : ∃ s st, states = s :: st := by
        cases states with
        | nil => simp at hslen
        | cons s st => exact ⟨s, st, rfl⟩
      have hndd : ¬ d ∈ dt := (List.nodup_cons.mp hnd).1
      have hnddt : dt.Nodup := (List.nodup_cons.mp hnd).2
      have hslen' : st.length = dt.length := by simpa using hslen
      by_cases hd : d ∈ adim
      · -- target dim already present: the head consumes the first source axis
        have hadim : adim = d :: dt.filter (fun x => decide (x ∈ adim)) := by
          rw [List.filter_cons] at hsub
          simp [hd] at hsub
          exact hsub.symm
        have hmem : ∀ x ∈ dt, (x ∈ adim ↔ x ∈ dt.filter (fun x => decide (x ∈ adim))) := by
          intro x hx
          constructor
          · intro hxa
            simp [List.mem_filter, hx, hxa]
          · intro hxf
            exact of_decide_eq_true (List.mem_filter.mp hxf).2
        obtain ⟨s₀, ash', rfl⟩ : ∃ s₀ ash', ash = s₀ :: ash' := by
          cases ash with
          | nil => rw [hadim] at hlen; simp at hlen
          | cons y t => exact ⟨y, t, rfl⟩
        have hlen' : (dt.filter (fun x => decide (x ∈ adim))).length = ash'.length := by
          rw [hadim] at hlen
          simpa using hlen
        have hsub' : dt.filter
            (fun x => decide (x ∈ dt.filter (fun x => decide (x ∈ adim)))) =
            dt.filter (fun x => decide (x ∈ adim)) := by
          apply List.filter_congr
          intro x hx
          simp only [decide_eq_decide]
          exact (hmem x hx).symm
        have hdiff : diffList adim (d :: dt)
            = (diffList (dt.filter (fun x => decide (x ∈ adim))) dt).map (· + 1) := by
          rw [diffList_cons]
          simp only [hd, if_pos, List.nil_append]
          rw [diffList_congr adim _ dt hmem]
        have hreps : repsList adim (d :: dt) (s :: st)
            = 1 :: repsList (dt.filter (fun x => decide (x ∈ adim))) dt st := by
          rw [repsList_cons]
          simp only [hd, if_pos]
          rw [repsList_congr adim _ dt st hmem]
        refine ⟨?_, ?_⟩
        · rw [expand_shape]
          show List.zipWith (· * ·) (repsList adim (d :: dt) (s :: st))
              (shapeFold (diffList adim (d :: dt)) (s₀ :: ash')) = _
          rw [hdiff, hreps, shapeFold_shift, List.zipWith_cons_cons, Nat.one_mul]
          have ihs := (ih (dt.filter (fun x => decide (x ∈ adim))) ash' f st hnddt hsub'
            hlen' hslen').1
          rw [expand_shape] at ihs
          show s₀ :: List.zipWith (· * ·) _ _ = _
          rw [ihs]
          show _ = expandShapeSpec (d :: dt) adim (s₀ :: ash') (s :: st)
          simp only [expandShapeSpec, if_pos hd, List.headD_cons, List.tail_cons]
          rw [expandShapeSpec_congr adim _ dt ash' st hmem]
        · intro ix hix
          obtain ⟨i, jx, rfl⟩ : ∃ i jx, ix = i :: jx := by
            cases ix with
            | nil => simp at hix
            | cons i jx => exact ⟨i, jx, rfl⟩
          have hjx : jx.length = dt.length := by simpa using hix
          rw [expand_pmf]
          show funcFold (diffList adim (d :: dt)) f
              (List.zipWith (fun i sd => i % sd) (i :: jx)
                (shapeFold (diffList adim (d :: dt)) (s₀ :: ash'))) = _
          rw [hdiff, shapeFold_shift, List.zipWith_cons_cons, funcFold_shift]
          have ihp := (ih (dt.filter (fun x => decide (x ∈ adim))) ash'
            (fun kx => f ((i % s₀) :: kx)) st hnddt hsub' hlen' hslen').2 jx hjx
          rw [expand_pmf] at ihp
          rw [ihp]
          show _ = f (extractIx (d :: dt) adim (s₀ :: ash') (i :: jx))
          simp only [extractIx, if_pos hd, List.headD_cons, List.tail_cons]
          rw [extractIx_congr adim _ dt ash' jx hmem]
      · -- missing target dim: a singleton axis is inserted and tiled
        have hsub' : dt.filter (fun x => decide (x ∈ adim)) = adim := by
          rw [List.filter_cons] at hsub
          simpa [hd] using hsub
        have hdiff : diffList adim (d :: dt) = 0 :: (diffList adim dt).map (· + 1) := by
          rw [diffList_cons]
          simp [hd]
        have hreps : repsList adim (d :: dt) (s :: st) = s :: repsList adim dt st := by
          rw [repsList_cons]
          simp [hd]
        refine ⟨?_, ?_⟩
        · rw [expand_shape]
          show List.zipWith (· * ·) (repsList adim (d :: dt) (s :: st))
              (shapeFold (diffList adim (d :: dt)) ash) = _
          rw [hdiff, hreps, shapeFold_cons, List.insertIdx_zero, shapeFold_shift,
            List.zipWith_cons_cons, Nat.mul_one]
          have ihs := (ih adim ash f st hnddt hsub' hlen hslen').1
          rw [expand_shape] at ihs
          rw [ihs]
          show _ = expandShapeSpec (d :: dt) adim ash (s :: st)
          simp [expandShapeSpec, hd]
        · intro ix hix
          obtain ⟨i, jx, rfl⟩ : ∃ i jx, ix = i :: jx := by
            cases ix with
            | nil => simp at hix
            | cons i jx => exact ⟨i, jx, rfl⟩
          have hjx : jx.length = dt.length := by simpa using hix
          rw [expand_pmf]
          show funcFold (diffList adim (d :: dt)) f
              (List.zipWith (fun i sd => i % sd) (i :: jx)
                (shapeFold (diffList adim (d :: dt)) ash)) = _
          rw [hdiff, shapeFold_cons, List.insertIdx_zero, shapeFold_shift,
            List.zipWith_cons_cons, funcFold_cons, funcFold_shift]
          have ihp := (ih adim ash f st hnddt hsub' hlen hslen').2 jx hjx
          rw [expand_pmf] at ihp
          show funcFold (diffList adim dt) f _ = _
          rw [ihp]
          show _ = f (extractIx (d :: dt) adim ash (i :: jx))
          simp [extractIx, hd]

/-! ## Multiplying a rank-1 message into a full-rank tensor -/

theorem filter_mem_singleton [DecidableEq V] (l : List V) (v : V) (hnd : l.Nodup)
    (hv : v ∈ l) : l.filter (fun x => decide (x ∈ ([v] : List V))) = [v] := by
  induction l with
  | nil => cases hv
  | cons x t ih =>
      rw [List.filter_cons]
      by_cases hx : x = v
      · subst hx
        have hnx : ¬ x ∈ t := List.Nodup.not_mem hnd
        have ht : t.filter (fun y => decide (y ∈ ([x] : List V))) = [] := by
          rw [List.filter_eq_nil_iff]
          intro y hy
          simp only [List.mem_singleton, decide_eq_true_eq]
          intro hyx
          exact hnx (hyx ▸ hy)
        rw [if_pos (by simp), ht]
      · have hvt : v ∈ t := by
          rcases List.mem_cons.mp hv with h | h
          · exact absurd h.symm hx
          · exact h
        have hrec := ih (List.nodup_cons.mp hnd).2 hvt
        rw [if_neg (by simpa using hx)]
        exact hrec

theorem extractIx_all_miss [DecidableEq V] (l : List V) (sd : List V) :
    ∀ (ash ix : List ℕ), (∀ x ∈ l, ¬ x ∈ sd) → extractIx l sd ash ix = [] := by
  induction l with
  | nil => intro ash ix _; rfl
  | cons x t ih =>
      intro ash ix h
      have hx : ¬ x ∈ sd := h x (List.mem_cons_self x t)
      simp only [extractIx, if_neg hx]
      exact ih _ _ fun y hy => h y (List.mem_cons_of_mem x hy)

theorem extractIx_map_singleton [DecidableEq V] (D₁ : List V) (D₂ : List V) (n : V) (sb : ℕ)
    (h₁ : ¬ n ∈ D₁) (h₂ : ¬ n ∈ D₂) (τ : V → ℕ) :
    extractIx (D₁ ++ n :: D₂) [n] [sb] ((D₁ ++ n :: D₂).map τ) = [τ n % sb] := by
  induction D₁ with
  | nil =>
      have hmiss : ∀ x ∈ D₂, ¬ x ∈ ([n] : List V) := by
        intro x hx
        simp only [List.mem_singleton]
        intro hxn
        exact h₂ (hxn ▸ hx)
      have hn : n ∈ ([n] : List V) := List.mem_singleton.mpr rfl
      simp only [List.nil_append, List.map_cons, extractIx, if_pos hn, List.headD_cons,
        List.tail_cons]
      rw [extractIx_all_miss D₂ [n] _ _ hmiss]
  | cons x t ih =>
      have hxn : ¬ x ∈ ([n] : List V) := by
        simp only [List.mem_singleton]
        intro hx
        exact h₁ (List.mem_cons.mpr (Or.inl hx.symm))
      simp only [List.cons_append, List.map_cons, extractIx, if_neg hxn, List.tail_cons,
        List.append_eq]
      exact ih fun hc => h₁ (List.mem_cons_of_mem x hc)

theorem expandShapeSpec_all_miss [DecidableEq V] (l : List V) (sd : List V) (ash : List ℕ) :
    ∀ states : List ℕ, (∀ x ∈ l, ¬ x ∈ sd) → states.length = l.length →
      expandShapeSpec l sd ash states = states := by
  induction l with
  | nil =>
      intro states _ hlen
      exact (List.length_eq_zero.mp hlen).symm ▸ rfl
  | cons x t ih =>
      intro states h hlen
      obtain ⟨s, st, rfl⟩ : ∃ s st, states = s :: st := by
        cases states with
        | nil => simp at hlen
        | cons s st => exact ⟨s, st, rfl⟩
      have hx : ¬ x ∈ sd := h x (List.mem_cons_self x t)
      simp only [expandShapeSpec, if_neg hx, List.headD_cons, List.tail_cons]
      rw [ih st (fun y hy => h y (List.mem_cons_of_mem x hy)) (by simpa using hlen)]

theorem expandShapeSpec_map_singleton [DecidableEq V] (S : V → ℕ) (D₂ : List V) (n : V)
    (sb : ℕ) (h₂ : ¬ n ∈ D₂) :
    ∀ D₁ : List V, ¬ n ∈ D₁ →
      expandShapeSpec (D₁ ++ n :: D₂) [n] [sb] ((D₁ ++ n :: D₂).map S)
        = D₁.map S ++ sb :: D₂.map S := by
  intro D₁
  induction D₁ with
  | nil =>
      intro _
      have hmiss : ∀ x ∈ D₂, ¬ x ∈ ([n] : List V) := by
        intro x hx
        simp only [List.mem_singleton]
        intro hxn
        exact h₂ (hxn ▸ hx)
      have hn : n ∈ ([n] : List V) := List.mem_singleton.mpr rfl
      simp only [List.nil_append, List.map_cons, expandShapeSpec, if_pos hn, List.headD_cons,
        List.tail_cons, List.map_nil]
      rw [expandShapeSpec_all_miss D₂ [n] _ _ hmiss (by simp)]
  | cons x t ih =>
      intro h₁
      have hxn : ¬ x ∈ ([n] : List V) := by
        simp only [List.mem_singleton]
        intro hx
        exact h₁ (List.mem_cons.mpr (Or.inl hx.symm))
      simp only [List.cons_append, List.map_cons, expandShapeSpec, if_neg hxn,
        List.headD_cons, List.tail_cons, List.append_eq]
      rw [ih fun hc => h₁ (List.mem_cons_of_mem x hc)]

theorem mul_msg_full [DecidableEq V] (S : V → ℕ) (a b : Discrete V) (n : V) (sb : ℕ)
    (hnd : a.dim.Nodup) (hashape : a.shape = a.dim.map S)
    (hbdim : b.dim = [n]) (hbs : b.shape = [sb]) (hn : n ∈ a.dim)
    (hsb : sb = S n ∨ sb = 1) (hr : 1 < a.dim.length) :
    (a.mul b).dim = a.dim ∧ (a.mul b).shape = a.shape ∧
      ∀ σ : V → ℕ, (∀ w, σ w < S w) → (a.mul b).denote σ = a.denote σ * b.denote σ := by
  obtain ⟨D₁, D₂, hD⟩ := List.append_of_mem hn
  have hnD₁ : ¬ n ∈ D₁ := by
    rw [hD, List.nodup_middle] at hnd
    intro hc
    exact (List.Nodup.not_mem hnd) (List.mem_append.mpr (Or.inl hc))
  have hnD₂ : ¬ n ∈ D₂ := by
    rw [hD, List.nodup_middle] at hnd
    intro hc
    exact (List.Nodup.not_mem hnd) (List.mem_append.mpr (Or.inr hc))
  have hmul : a.mul b
      = ⟨bshape a.shape (b.expand a.dim a.shape).shape,
         fun ix => a.bval ix * (b.expand a.dim a.shape).bval ix, a.dim⟩ := by
    have h1 : ¬ a.dim.length < b.dim.length := by
      rw [hbdim, List.length_singleton]
      omega
    have h2 : b.dim.length < a.dim.length := by
      rw [hbdim, List.length_singleton]
      omega
    simp only [Discrete.mul, Discrete.mulFull, if_neg h1, if_pos h2]
  have hspec := expand_spec a.dim [n] [sb] b.pmf a.shape hnd
    (filter_mem_singleton a.dim n hnd hn)
    (by simp)
    (by rw [hashape]; simp)
  have hb2 : b.expand a.dim a.shape = Discrete.expand ⟨[sb], b.pmf, [n]⟩ a.dim a.shape := by
    have : b = ⟨[sb], b.pmf, [n]⟩ := by
      cases b
      simp_all
    rw [← this]
  have hb2shape : (b.expand a.dim a.shape).shape = D₁.map S ++ sb :: D₂.map S := by
    rw [hb2, hspec.1]
    rw [hD, hashape, hD]
    exact expandShapeSpec_map_singleton S D₂ n sb hnD₂ D₁ hnD₁
  have hshape : bshape a.shape (b.expand a.dim a.shape).shape = a.shape := by
    rw [hb2shape, hashape, hD, List.map_append, List.map_cons]
    rw [bshape, List.zipWith_append _ _ _ _ _ (by simp), List.zipWith_cons_cons]
    rw [zipWith_map_same, zipWith_map_same]
    have hs : ∀ (D : List V), (D.map fun x => if S x = 1 then S x else S x) = D.map S :=
      fun D => List.map_congr_left fun x _ => ite_self (S x)
    rw [hs D₁, hs D₂]
    have hmid : (if S n = 1 then sb else S n) = S n := by
      rcases hsb with h | h
      · by_cases h1 : S n = 1 <;> simp [h1, h]
      · by_cases h1 : S n = 1 <;> simp [h1, h]
    rw [hmid]
  refine ⟨by rw [hmul], by rw [hmul]; exact hshape, ?_⟩
  intro σ hσ
  have hvalid : broadcastIx a.shape (a.dim.map σ) = a.dim.map σ := by
    rw [hashape]
    exact broadcastIx_map_valid S σ a.dim hσ
  set c : ℕ := if sb = 1 then 0 else σ n with hc
  have hclamp : broadcastIx (b.expand a.dim a.shape).shape (a.dim.map σ)
      = a.dim.map (Function.update σ n c) := by
    rw [hb2shape, hD, List.map_append, List.map_cons, List.map_append, List.map_cons]
    rw [broadcastIx, List.zipWith_append _ _ _ _ _ (by simp), List.zipWith_cons_cons]
    rw [zipWith_map_same, zipWith_map_same]
    have hpart : ∀ (D : List V), ¬ n ∈ D →
        (D.map fun d => if S d = 1 then 0 else σ d) = D.map (Function.update σ n c) := by
      intro D hnD
      apply List.map_congr_left
      intro d hd
      have hdn : d ≠ n := fun hdn => hnD (hdn ▸ hd)
      rw [Function.update_noteq hdn]
      by_cases h1 : S d = 1
      · have := hσ d
        rw [h1] at this
        simp [h1]
        omega
      · simp [h1]
    rw [hpart D₁ hnD₁, hpart D₂ hnD₂]
    have hmid : (if sb = 1 then 0 else σ n) = Function.update σ n c n := by
      rw [Function.update_same]
    rw [hmid]
  have hb2val : (b.expand a.dim a.shape).bval (a.dim.map σ) = b.denote σ := by
    unfold Discrete.bval
    rw [hclamp, hb2]
    rw [hspec.2 (a.dim.map (Function.update σ n c)) (by simp)]
    rw [hD, extractIx_map_singleton D₁ D₂ n sb hnD₁ hnD₂]
    rw [Function.update_same]
    have hcmod : c % sb = if sb = 1 then 0 else σ n := by
      by_cases h1 : sb = 1
      · simp [hc, h1]
      · have hsn : sb = S n := by tauto
        have : σ n < sb := hsn ▸ hσ n
        simp only [hc, if_neg h1]
        exact Nat.mod_eq_of_lt this
    rw [hcmod]
    show b.pmf _ = b.denote σ
    rw [Discrete.denote, Discrete.bval, hbdim, hbs]
    rfl
  rw [Discrete.denote, hmul]
  show Discrete.bval _ _ = _
  unfold Discrete.bval
  show (fun ix => a.bval ix * (b.expand a.dim a.shape).bval ix)
      (broadcastIx (bshape a.shape (b.expand a.dim a.shape).shape) (a.dim.map σ)) = _
  rw [hshape, hvalid]
  show a.bval (a.dim.map σ) * (b.expand a.dim a.shape).bval (a.dim.map σ) = _
  rw [hb2val]
  rfl

/-! ## Marginalizing a single variable out of a full tensor -/

theorem npSumAxes_single (s : List ℕ) (f : List ℕ → ℚ) (k : ℕ) :
    npSumAxes s f [k] = npSumAxis s f k := by
  simp [npSumAxes]

theorem marginalize_single [DecidableEq V] (S : V → ℕ) (a : Discrete V) (v : V)
    (D₁ D₂ : List V) (hD : a.dim = D₁ ++ v :: D₂) (h₁ : ¬ v ∈ D₁) (h₂ : ¬ v ∈ D₂)
    (hashape : a.shape = a.dim.map S) :
    (a.marginalize [v] false).dim = D₁ ++ D₂ ∧
    (a.marginalize [v] false).shape = (D₁ ++ D₂).map S ∧
    ∀ σ : V → ℕ, (∀ w, σ w < S w) →
      (a.marginalize [v] false).denote σ
        = ((List.range (S v)).map fun i => a.denote (Function.update σ v i)).sum := by
  have haxis : axisList a.dim [v] = [D₁.length] := by
    rw [hD]
    exact axisList_singleton_mid D₁ D₂ v h₁ h₂
  have hsh : a.shape = D₁.map S ++ S v :: D₂.map S := by
    rw [hashape, hD, List.map_append, List.map_cons]
  have hklen : D₁.length = (D₁.map S).length := (List.length_map D₁ S).symm
  have hmarg : a.marginalize [v] false
      = ⟨(D₁ ++ D₂).map S,
         fun jx => ((List.range (S v)).map fun i =>
           a.pmf (List.insertIdx D₁.length i jx)).sum,
         a.dim.filter fun d => ¬ d ∈ ([v] : List V)⟩ := by
    unfold Discrete.marginalize
    rw [haxis, npSumAxes_single]
    unfold npSumAxis
    have hgetD : a.shape.getD D₁.length 0 = S v := by
      rw [hsh, hklen]
      exact getD_length_append (D₁.map S) (D₂.map S) (S v) 0
    have herase : a.shape.eraseIdx D₁.length = (D₁ ++ D₂).map S := by
      rw [hsh, hklen, eraseIdx_length_append, ← List.map_append]
    simp only [hgetD, herase, Bool.false_eq_true, if_false]
  have hdim : (a.marginalize [v] false).dim = D₁ ++ D₂ := by
    rw [hmarg]
    show a.dim.filter (fun d => decide (¬ d ∈ ([v] : List V))) = D₁ ++ D₂
    rw [hD, List.filter_append, List.filter_cons]
    have hvf : (decide (¬ v ∈ ([v] : List V))) = false := by simp
    rw [hvf]
    have hpass : ∀ (D : List V), ¬ v ∈ D →
        D.filter (fun d => decide (¬ d ∈ ([v] : List V))) = D := by
      intro D hvD
      apply List.filter_eq_self.mpr
      intro d hd
      simp only [List.mem_singleton, decide_eq_true_eq]
      intro hdv
      exact hvD (hdv ▸ hd)
    rw [hpass D₁ h₁, hpass D₂ h₂]
    simp
  refine ⟨hdim, by rw [hmarg], ?_⟩
  intro σ hσ
  unfold Discrete.denote
  rw [hdim]
  unfold Discrete.bval
  have hvalid : broadcastIx (a.marginalize [v] false).shape ((D₁ ++ D₂).map σ)
      = (D₁ ++ D₂).map σ := by
    rw [hmarg]
    exact broadcastIx_map_valid S σ (D₁ ++ D₂) hσ
  rw [hvalid, hmarg]
  show ((List.range (S v)).map fun i =>
      a.pmf (List.insertIdx D₁.length i ((D₁ ++ D₂).map σ))).sum = _
  apply congrArg
  apply List.map_congr_left
  intro i hi
  have hiv : i < S v := List.mem_range.mp hi
  have hupd : ∀ w, Function.update σ v i w < S w := by
    intro w
    by_cases hw : w = v
    · subst hw
      rw [Function.update_same]
      exact hiv
    · rw [Function.update_noteq hw]
      exact hσ w
  have hins : List.insertIdx D₁.length i ((D₁ ++ D₂).map σ)
      = D₁.map σ ++ i :: D₂.map σ := by
    rw [List.map_append]
    have h := insertIdx_length_append (D₁.map σ) (D₂.map σ) i
    rw [List.length_map] at h
    exact h
  have hmap : a.dim.map (Function.update σ v i) = D₁.map σ ++ i :: D₂.map σ := by
    rw [hD, List.map_append, List.map_cons, Function.update_same]
    have hpart : ∀ (D : List V), ¬ v ∈ D →
        D.map (Function.update σ v i) = D.map σ := by
      intro D hvD
      apply List.map_congr_left
      intro d hd
      have hdv : d ≠ v := fun hdv => hvD (hdv ▸ hd)
      exact Function.update_noteq hdv i σ
    rw [hpart D₁ h₁, hpart D₂ h₂]
  rw [hins, hashape, broadcastIx_map_valid S (Function.update σ v i) a.dim hupd, hmap]

/-! ## Sums over assignments -/

theorem sum_map_add {α : Type} (l : List α) (f g : α → ℚ) :
    (l.map fun x => f x + g x).sum = (l.map f).sum + (l.map g).sum := by
  induction l with
  | nil => simp
  | cons x t ih =>
      simp only [List.map_cons, List.sum_cons, ih]
      ring

theorem listSum_swap {α β : Type} (l₁ : List α) (l₂ : List β) (g : α → β → ℚ) :
    (l₁.map fun i => (l₂.map fun j => g i j).sum).sum
      = (l₂.map fun j => (l₁.map fun i => g i j).sum).sum := by
  induction l₁ with
  | nil => simp
  | cons x t ih =>
      simp only [List.map_cons, List.sum_cons, ih, sum_map_add]

theorem sumOver_congr [DecidableEq V] (S : V → ℕ) (vs : List V) :
    ∀ (g h : (V → ℕ) → ℚ) (σ : V → ℕ), (∀ τ : V → ℕ, (∀ w, τ w < S w) → g τ = h τ) →
      (∀ w, σ w < S w) → sumOver S vs g σ = sumOver S vs h σ := by
  induction vs with
  | nil => intro g h σ hgh hσ; exact hgh σ hσ
  | cons v tl ih =>
      intro g h σ hgh hσ
      simp only [sumOver]
      apply congrArg
      apply List.map_congr_left
      intro i hi
      refine ih g h _ hgh ?_
      intro w
      by_cases hw : w = v
      · subst hw
        rw [Function.update_same]
        exact List.mem_range.mp hi
      · rw [Function.update_noteq hw]
        exact hσ w

theorem sumOver_insensitive [DecidableEq V] (S : V → ℕ) (vs : List V) :
    ∀ (g : (V → ℕ) → ℚ) (x : V) (σ : V → ℕ) (i : ℕ), Insensitive g x →
      sumOver S vs g (Function.update σ x i) = sumOver S vs g σ := by
  induction vs with
  | nil => intro g x σ i hins; exact hins σ i
  | cons v tl ih =>
      intro g x σ i hins
      simp only [sumOver]
      apply congrArg
      apply List.map_congr_left
      intro j _
      by_cases hxv : x = v
      · subst hxv
        rw [Function.update_idem]
      · rw [Function.update_comm hxv]
        exact ih g x _ i hins

theorem sumOver_mul_left [DecidableEq V] (S : V → ℕ) (vs : List V) :
    ∀ (g h : (V → ℕ) → ℚ) (σ : V → ℕ), (∀ v ∈ vs, Insensitive g v) →
      sumOver S vs (fun τ => g τ * h τ) σ = g σ * sumOver S vs h σ := by
  induction vs with
  | nil => intro g h σ _; rfl
  | cons v tl ih =>
      intro g h σ hins
      simp only [sumOver]
      rw [← List.sum_map_mul_left]
      apply congrArg
      apply List.map_congr_left
      intro i _
      rw [ih g h _ fun w hw => hins w (List.mem_cons_of_mem v hw)]
      rw [hins v (List.mem_cons_self v tl) σ i]

theorem sumOver_append [DecidableEq V] (S : V → ℕ) (xs : List V) :
    ∀ (ys : List V) (g : (V → ℕ) → ℚ) (σ : V → ℕ),
      sumOver S (xs ++ ys) g σ = sumOver S xs (fun τ => sumOver S ys g τ) σ := by
  induction xs with
  | nil => intro ys g σ; rfl
  | cons x t ih =>
      intro ys g σ
      simp only [List.cons_append, sumOver]
      apply congrArg
      apply List.map_congr_left
      intro i _
      exact ih ys g _

theorem sumOver_perm [DecidableEq V] (S : V → ℕ) {vs ws : List V} (hp : vs.Perm ws) :
    ∀ (g : (V → ℕ) → ℚ) (σ : V → ℕ), sumOver S vs g σ = sumOver S ws g σ := by
  induction hp with
  | nil => intro g σ; rfl
  | cons x _ ih =>
      intro g σ
      simp only [sumOver]
      apply congrArg
      apply List.map_congr_left
      intro i _
      exact ih g _
  | swap x y l =>
      intro g σ
      by_cases hxy : y = x
      · subst hxy; rfl
      · simp only [sumOver]
        rw [listSum_swap]
        apply congrArg
        apply List.map_congr_left
        intro i _
        apply congrArg
        apply List.map_congr_left
        intro j _
        rw [Function.update_comm hxy]
  | trans _ _ ih₁ ih₂ =>
      intro g σ
      exact (ih₁ g σ).trans (ih₂ g σ)

theorem insensitive_denote [DecidableEq V] (a : Discrete V) (x : V) (hx : ¬ x ∈ a.dim) :
    Insensitive a.denote x := by
  intro σ i
  unfold Discrete.denote
  have : a.dim.map (Function.update σ x i) = a.dim.map σ := by
    apply List.map_congr_left
    intro d hd
    have hdx : d ≠ x := fun hdx => hx (hdx ▸ hd)
    exact Function.update_noteq hdx i σ
  rw [this]

theorem insensitive_joint [DecidableEq V] (fs : List (Discrete V)) (x : V)
    (h : ∀ f ∈ fs, ¬ x ∈ f.dim) : Insensitive (jointDenote fs) x := by
  intro σ i
  unfold jointDenote
  apply congrArg
  apply List.map_congr_left
  intro f hf
  exact insensitive_denote f x (h f hf) σ i

theorem insensitive_sumOver [DecidableEq V] (S : V → ℕ) (vs : List V)
    (g : (V → ℕ) → ℚ) (x : V) (h : Insensitive g x) :
    Insensitive (fun τ => sumOver S vs g τ) x :=
  fun σ i => sumOver_insensitive S vs g x σ i h

theorem insensitive_mul [DecidableEq V] (g h : (V → ℕ) → ℚ) (x : V)
    (hg : Insensitive g x) (hh : Insensitive h x) :
    Insensitive (fun τ => g τ * h τ) x := by
  intro σ i
  simp only [hg σ i, hh σ i]

/-! ## Structure of rooted tree factor graphs -/

theorem VTree.vars_eq (t : VTree V) : t.vars = t.rootVar :: t.belowVars := by
  cases t
  rfl

theorem VForest.roots_sublist : ∀ vs : VForest V, vs.roots.Sublist vs.vars
  | .nil => List.Sublist.refl []
  | .cons t ts => by
      show (t.rootVar :: ts.roots).Sublist (t.vars ++ ts.vars)
      rw [VTree.vars_eq t, List.cons_append]
      exact List.Sublist.cons₂ t.rootVar
        (List.Sublist.trans (VForest.roots_sublist ts) (List.sublist_append_right _ _))

theorem VForest.vars_perm : ∀ vs : VForest V, vs.vars.Perm (vs.roots ++ vs.belowVars)
  | .nil => List.Perm.refl []
  | .cons t ts => by
      show (t.vars ++ ts.vars).Perm ((t.rootVar :: ts.roots) ++ (t.belowVars ++ ts.belowVars))
      rw [VTree.vars_eq t, List.cons_append, List.cons_append]
      refine List.Perm.cons t.rootVar ?_
      have h1 : (t.belowVars ++ ts.vars).Perm (t.belowVars ++ (ts.roots ++ ts.belowVars)) :=
        List.Perm.append_left _ (VForest.vars_perm ts)
      have h2 : (t.belowVars ++ (ts.roots ++ ts.belowVars)).Perm
          (ts.roots ++ (t.belowVars ++ ts.belowVars)) := by
        rw [← List.append_assoc, ← List.append_assoc]
        exact List.Perm.append_right _ List.perm_append_comm
      exact h1.trans h2

theorem jointDenote_nil (σ : V → ℕ) : jointDenote ([] : List (Discrete V)) σ = 1 := rfl

theorem jointDenote_cons (f : Discrete V) (fs : List (Discrete V)) (σ : V → ℕ) :
    jointDenote (f :: fs) σ = f.denote σ * jointDenote fs σ := rfl

theorem jointDenote_append (fs gs : List (Discrete V)) (σ : V → ℕ) :
    jointDenote (fs ++ gs) σ = jointDenote fs σ * jointDenote gs σ := by
  unfold jointDenote
  rw [List.map_append, List.prod_append]

theorem unity_dim (dims : List V) : (Discrete.unity dims).dim = dims := rfl

theorem unity_denote (dims : List V) (σ : V → ℕ) : (Discrete.unity dims).denote σ = 1 := rfl

theorem dimsWithin_weaken (fs : List (Discrete V)) (s s' : List V)
    (h : dimsWithin fs s) (hss : ∀ x ∈ s, x ∈ s') : dimsWithin fs s' :=
  fun f hf d hd => hss d (h f hf d hd)

theorem dimsWithin_append (fs gs : List (Discrete V)) (s : List V)
    (hf : dimsWithin fs s) (hg : dimsWithin gs s) : dimsWithin (fs ++ gs) s := by
  intro f hmem
  rcases List.mem_append.mp hmem with h | h
  · exact hf f h
  · exact hg f h

theorem dimsWithin_cons (f : Discrete V) (fs : List (Discrete V)) (s : List V)
    (hf : ∀ d ∈ f.dim, d ∈ s) (hg : dimsWithin fs s) : dimsWithin (f :: fs) s := by
  intro g hmem
  rcases List.mem_cons.mp hmem with h | h
  · exact h ▸ hf
  · exact hg g h

mutual
theorem VTree.dims_withinV [DecidableEq V] (S : V → ℕ) :
    ∀ t : VTree V, t.wfB S = true → dimsWithin t.factors t.vars
  | .mk v fs, hwf => by
      show dimsWithin fs.factors (v :: fs.vars)
      exact FForest.dims_withinFF S fs v hwf

theorem FForest.dims_withinFF [DecidableEq V] (S : V → ℕ) :
    ∀ (fs : FForest V) (p : V), fs.wfB S p = true → dimsWithin fs.factors (p :: fs.vars)
  | .nil, p, _ => by
      intro f hf
      cases hf
  | .cons t ts, p, hwf => by
      have hwf2 := hwf
      simp only [FForest.wfB, Bool.and_eq_true] at hwf2
      show dimsWithin (t.factors ++ ts.factors) (p :: (t.vars ++ ts.vars))
      refine dimsWithin_append _ _ _ ?_ ?_
      · refine dimsWithin_weaken _ _ _ (FTree.dims_withinFT S t p hwf2.1) ?_
        intro x hx
        rcases List.mem_cons.mp hx with h | h
        · exact h ▸ List.mem_cons_self p _
        · exact List.mem_cons_of_mem p (List.mem_append.mpr (Or.inl h))
      · refine dimsWithin_weaken _ _ _ (FForest.dims_withinFF S ts p hwf2.2) ?_
        intro x hx
        rcases List.mem_cons.mp hx with h | h
        · exact h ▸ List.mem_cons_self p _
        · exact List.mem_cons_of_mem p (List.mem_append.mpr (Or.inr h))

theorem FTree.dims_withinFT [DecidableEq V] (S : V → ℕ) :
    ∀ (t : FTree V) (p : V), t.wfB S p = true → dimsWithin t.factors (p :: t.vars)
  | .mk fct vs, p, hwf => by
      have hwf2 := hwf
      simp only [FTree.wfB, Bool.and_eq_true, List.isPerm_iff] at hwf2
      show dimsWithin (fct :: vs.factors) (p :: vs.vars)
      refine dimsWithin_cons _ _ _ ?_ ?_
      · intro d hd
        have hd2 : d ∈ p :: vs.roots := (hwf2.1.2.mem_iff).mp hd
        rcases List.mem_cons.mp hd2 with h | h
        · exact h ▸ List.mem_cons_self p _
        · exact List.mem_cons_of_mem p
            (List.Sublist.mem h (VForest.roots_sublist vs))
      · refine dimsWithin_weaken _ _ _ (VForest.dims_withinVF S vs hwf2.2) ?_
        intro x hx
        exact List.mem_cons_of_mem p hx

theorem VForest.dims_withinVF [DecidableEq V] (S : V → ℕ) :
    ∀ vs : VForest V, vs.wfB S = true → dimsWithin vs.factors vs.vars
  | .nil, _ => by
      intro f hf
      cases hf
  | .cons t ts, hwf => by
      have hwf2 := hwf
      simp only [VForest.wfB, Bool.and_eq_true] at hwf2
      show dimsWithin (t.factors ++ ts.factors) (t.vars ++ ts.vars)
      refine dimsWithin_append _ _ _ ?_ ?_
      · refine dimsWithin_weaken _ _ _ (VTree.dims_withinV S t hwf2.1) ?_
        intro x hx
        exact List.mem_append.mpr (Or.inl hx)
      · refine dimsWithin_weaken _ _ _ (VForest.dims_withinVF S ts hwf2.2) ?_
        intro x hx
        exact List.mem_append.mpr (Or.inr hx)
end

/-! ## Semantics of the marginalization loop of `FNode.spa` -/

theorem nodup_middle_split {B : Type} (D₁ D₂ : List B) (r : B)
    (hnd : (D₁ ++ r :: D₂).Nodup) : ¬ r ∈ D₁ ∧ ¬ r ∈ D₂ ∧ (D₁ ++ D₂).Nodup := by
  rw [List.nodup_middle] at hnd
  refine ⟨?_, ?_, (List.nodup_cons.mp hnd).2⟩
  · intro hc
    exact (List.Nodup.not_mem hnd) (List.mem_append.mpr (Or.inl hc))
  · intro hc
    exact (List.Nodup.not_mem hnd) (List.mem_append.mpr (Or.inr hc))

theorem sumOver_single [DecidableEq V] (S : V → ℕ) (r : V) (g : (V → ℕ) → ℚ) (σ : V → ℕ) :
    sumOver S [r] g σ = ((List.range (S r)).map fun i => g (Function.update σ r i)).sum := rfl

theorem margFold_sem [DecidableEq V] (S : V → ℕ) (p : V) :
    ∀ (vs : VForest V) (m : Discrete V) (D : List V),
      m.dim = D → m.shape = D.map S → D.Nodup → D.Perm (p :: vs.roots) →
      (margFold m vs).dim = [p] ∧ (margFold m vs).shape = [S p] ∧
      ∀ σ : V → ℕ, (∀ w, σ w < S w) →
        (margFold m vs).denote σ = sumOver S vs.roots m.denote σ
  | .nil, m, D, hd, hs, _, hperm => by
      have hroots : (VForest.nil : VForest V).roots = [] := rfl
      rw [hroots] at hperm
      have hD : D = [p] := List.perm_singleton.mp hperm
      subst hD
      refine ⟨hd, ?_, ?_⟩
      · show m.shape = [S p]
        rw [hs]
        rfl
      · intro σ _
        rfl
  | .cons t ts, m, D, hd, hs, hnd, hperm => by
      have hroots : (VForest.cons t ts).roots = t.rootVar :: ts.roots := rfl
      have hrD : t.rootVar ∈ D := by
        refine hperm.mem_iff.mpr ?_
        rw [hroots]
        exact List.mem_cons_of_mem p (List.mem_cons_self _ _)
      obtain ⟨D₁, D₂, hDeq⟩ := List.append_of_mem hrD
      have hsplit := nodup_middle_split D₁ D₂ t.rootVar (hDeq ▸ hnd)
      have hm := marginalize_single S m t.rootVar D₁ D₂ (hd.trans hDeq) hsplit.1 hsplit.2.1
        (by rw [hs, hd, hDeq])
      have hpermD2 : (D₁ ++ D₂).Perm (p :: ts.roots) := by
        have h1 : (t.rootVar :: (D₁ ++ D₂)).Perm D := by
          rw [hDeq]
          exact List.perm_middle.symm
        have h2 : (t.rootVar :: (D₁ ++ D₂)).Perm (p :: t.rootVar :: ts.roots) := by
          refine h1.trans ?_
          rw [hroots] at hperm
          exact hperm
        have h3 : (p :: t.rootVar :: ts.roots).Perm (t.rootVar :: p :: ts.roots) :=
          List.Perm.swap _ _ _
        exact List.Perm.cons_inv (h2.trans h3)
      have ih := margFold_sem S p ts (m.marginalize [t.rootVar] false) (D₁ ++ D₂)
        hm.1 hm.2.1 hsplit.2.2 hpermD2
      have hfold : margFold m (VForest.cons t ts)
          = margFold (m.marginalize [t.rootVar] false) ts := rfl
      rw [hfold, hroots]
      refine ⟨ih.1, ih.2.1, ?_⟩
      intro σ hσ
      rw [ih.2.2 σ hσ]
      have hcongr : sumOver S ts.roots (m.marginalize [t.rootVar] false).denote σ
          = sumOver S ts.roots (fun τ => sumOver S [t.rootVar] m.denote τ) σ := by
        refine sumOver_congr S ts.roots _ _ σ ?_ hσ
        intro τ hτ
        rw [hm.2.2 τ hτ, sumOver_single]
      rw [hcongr, ← sumOver_append]
      exact sumOver_perm S (List.perm_append_singleton t.rootVar ts.roots) m.denote σ

/-! ## Fusing products of subtree sums -/

theorem sumOver_mul_right [DecidableEq V] (S : V → ℕ) (vs : List V)
    (g h : (V → ℕ) → ℚ) (σ : V → ℕ) (hins : ∀ v ∈ vs, Insensitive h v) :
    sumOver S vs (fun τ => g τ * h τ) σ = sumOver S vs g σ * h σ := by
  have hcomm : (fun τ => g τ * h τ) = fun τ => h τ * g τ := by
    funext τ
    ring
  rw [hcomm, sumOver_mul_left S vs h g σ hins]
  ring

theorem sumOver_prod_split [DecidableEq V] (S : V → ℕ) (A B : List V)
    (F G : List (Discrete V)) (σ : V → ℕ)
    (hFB : ∀ f ∈ F, ∀ x ∈ B, ¬ x ∈ f.dim)
    (hGA : ∀ g ∈ G, ∀ x ∈ A, ¬ x ∈ g.dim) :
    sumOver S (A ++ B) (jointDenote (F ++ G)) σ
      = sumOver S A (jointDenote F) σ * sumOver S B (jointDenote G) σ := by
  rw [sumOver_append]
  have hfg : (jointDenote (F ++ G) : (V → ℕ) → ℚ)
      = fun ρ => jointDenote F ρ * jointDenote G ρ := by
    funext ρ
    exact jointDenote_append F G ρ
  have h2 : (fun τ => sumOver S B (jointDenote (F ++ G)) τ)
      = fun τ => jointDenote F τ * sumOver S B (jointDenote G) τ := by
    funext τ
    rw [hfg]
    exact sumOver_mul_left S B _ _ τ fun v hv =>
      insensitive_joint F v fun f hf => hFB f hf v hv
  rw [h2]
  exact sumOver_mul_right S A _ _ σ fun v hv =>
    insensitive_sumOver S B _ v (insensitive_joint G v fun g hg => hGA g hg v hv)

theorem VTree.belowVars_subsetV (t : VTree V) (x : V) (hx : x ∈ t.belowVars) :
    x ∈ t.vars := by
  rw [VTree.vars_eq]
  exact List.mem_cons_of_mem _ hx

theorem VForest.belowVars_subsetF (vs : VForest V) (x : V) (hx : x ∈ vs.belowVars) :
    x ∈ vs.vars :=
  (VForest.vars_perm vs).mem_iff.mpr (List.mem_append.mpr (Or.inr hx))

theorem VForest.roots_subset (vs : VForest V) (x : V) (hx : x ∈ vs.roots) :
    x ∈ vs.vars :=
  (VForest.roots_sublist vs).subset hx

/-! ## Correctness of the forward message pass -/

mutual

theorem VTree.spaMsg_semV [DecidableEq V] (S : V → ℕ) :
    ∀ t : VTree V, t.wfB S = true → t.vars.Nodup →
      t.spaMsg.dim = [t.rootVar] ∧
      (∃ s, t.spaMsg.shape = [s] ∧ (s = S t.rootVar ∨ s = 1)) ∧
      ∀ σ : V → ℕ, (∀ w, σ w < S w) →
        t.spaMsg.denote σ = sumOver S t.belowVars (jointDenote t.factors) σ
  | .mk v fs, hwf, hnd => by
      have hres := FForest.spaFold_semF S fs v hwf hnd (Discrete.unity [v]) 1 rfl rfl
        (Or.inr rfl)
      refine ⟨hres.1, hres.2.1, ?_⟩
      intro σ hσ
      have h := hres.2.2 σ hσ
      rw [unity_denote, one_mul] at h
      exact h

theorem FForest.spaFold_semF [DecidableEq V] (S : V → ℕ) :
    ∀ (fs : FForest V) (p : V), fs.wfB S p = true → (p :: fs.vars).Nodup →
      ∀ (acc : Discrete V) (sa : ℕ), acc.dim = [p] → acc.shape = [sa] →
        (sa = S p ∨ sa = 1) →
        (FForest.spaFold acc fs).dim = [p] ∧
        (∃ s, (FForest.spaFold acc fs).shape = [s] ∧ (s = S p ∨ s = 1)) ∧
        ∀ σ : V → ℕ, (∀ w, σ w < S w) →
          (FForest.spaFold acc fs).denote σ
            = acc.denote σ * sumOver S fs.vars (jointDenote fs.factors) σ
  | .nil, p, _, _, acc, sa, hdim, hsh, hsa => by
      refine ⟨hdim, ⟨sa, hsh, hsa⟩, ?_⟩
      intro σ _
      show acc.denote σ = acc.denote σ * 1
      rw [mul_one]
  | .cons t ts, p, hwf, hnd, acc, sa, hdim, hsh, hsa => by
      have hwf2 : t.wfB S p = true ∧ ts.wfB S p = true := by
        have h := hwf
        simp only [FForest.wfB, Bool.and_eq_true] at h
        exact h
      have hndall : (p :: (t.vars ++ ts.vars)).Nodup := hnd
      have hpv : ¬ p ∈ t.vars ++ ts.vars := List.Nodup.not_mem hndall
      have hndvv : (t.vars ++ ts.vars).Nodup := (List.nodup_cons.mp hndall).2
      have hndparts := List.nodup_append.mp hndvv
      have hndt : (p :: t.vars).Nodup :=
        List.nodup_cons.mpr ⟨fun hc => hpv (List.mem_append.mpr (Or.inl hc)), hndparts.1⟩
      have hndts : (p :: ts.vars).Nodup :=
        List.nodup_cons.mpr ⟨fun hc => hpv (List.mem_append.mpr (Or.inr hc)), hndparts.2.1⟩
      have hdisj : t.vars.Disjoint ts.vars := hndparts.2.2
      have hmsg := FTree.spaMsg_semF S t p hwf2.1 hndt
      have hmuleq := mul_rank1 acc t.spaMsg p sa (S p) hdim hmsg.1 hsh hmsg.2.1
      have hdim2 : (acc.mul t.spaMsg).dim = [p] := by rw [hmuleq]
      have hsh2 : (acc.mul t.spaMsg).shape = [if sa = 1 then S p else sa] := by rw [hmuleq]
      have hsa2 : (if sa = 1 then S p else sa) = S p ∨ (if sa = 1 then S p else sa) = 1 := by
        by_cases h1 : sa = 1
        · simp [h1]
        · simpa [h1] using hsa
      have ihres := FForest.spaFold_semF S ts p hwf2.2 hndts (acc.mul t.spaMsg) _ hdim2
        hsh2 hsa2
      have hfold : FForest.spaFold acc (FForest.cons t ts)
          = FForest.spaFold (acc.mul t.spaMsg) ts := rfl
      rw [hfold]
      refine ⟨ihres.1, ihres.2.1, ?_⟩
      intro σ hσ
      rw [ihres.2.2 σ hσ,
        mul_rank1_denote S acc t.spaMsg p sa (S p) hdim hmsg.1 hsh hmsg.2.1 hsa
          (Or.inl rfl) σ,
        hmsg.2.2 σ hσ]
      show acc.denote σ * sumOver S t.vars (jointDenote t.factors) σ
          * sumOver S ts.vars (jointDenote ts.factors) σ
        = acc.denote σ
          * sumOver S (t.vars ++ ts.vars) (jointDenote (t.factors ++ ts.factors)) σ
      have hFB : ∀ f ∈ t.factors, ∀ x ∈ ts.vars, ¬ x ∈ f.dim := by
        intro f hf x hx hxd
        have hsub := FTree.dims_withinFT S t p hwf2.1 f hf x hxd
        rcases List.mem_cons.mp hsub with h | h
        · exact (List.Nodup.not_mem hndts) (h ▸ hx)
        · exact hdisj h hx
      have hGA : ∀ g ∈ ts.factors, ∀ x ∈ t.vars, ¬ x ∈ g.dim := by
        intro g hg x hx hxd
        have hsub := FForest.dims_withinFF S ts p hwf2.2 g hg x hxd
        rcases List.mem_cons.mp hsub with h | h
        · exact (List.Nodup.not_mem hndt) (h ▸ hx)
        · exact hdisj hx h
      rw [sumOver_prod_split S t.vars ts.vars t.factors ts.factors σ hFB hGA]
      ring

theorem FTree.spaMsg_semF [DecidableEq V] (S : V → ℕ) :
    ∀ (t : FTree V) (p : V), t.wfB S p = true → (p :: t.vars).Nodup →
      t.spaMsg.dim = [p] ∧ t.spaMsg.shape = [S p] ∧
      ∀ σ : V → ℕ, (∀ w, σ w < S w) →
        t.spaMsg.denote σ = sumOver S t.vars (jointDenote t.factors) σ
  | .mk fct vs, p, hwf, hnd => by
      have hw : fct.shape = fct.dim.map S ∧ fct.dim.Perm (p :: vs.roots) ∧
          vs.wfB S = true := by
        have h := hwf
        simp only [FTree.wfB, Bool.and_eq_true, decide_eq_true_eq, List.isPerm_iff] at h
        exact ⟨h.1.1, h.1.2, h.2⟩
      have hndvv : vs.vars.Nodup := (List.nodup_cons.mp hnd).2
      have hpv : ¬ p ∈ vs.vars := List.Nodup.not_mem hnd
      have hrootsnd : vs.roots.Nodup := List.Nodup.sublist (VForest.roots_sublist vs) hndvv
      have hproots : ¬ p ∈ vs.roots := fun hc => hpv (VForest.roots_subset vs p hc)
      have hndpr : (p :: vs.roots).Nodup := List.nodup_cons.mpr ⟨hproots, hrootsnd⟩
      have hfnd : fct.dim.Nodup := (List.Perm.nodup_iff hw.2.1).mpr hndpr
      have hDlen : fct.dim.length = vs.roots.length + 1 := by
        rw [List.Perm.length_eq hw.2.1]
        rfl
      have hrsub : ∀ r ∈ vs.roots, r ∈ fct.dim := by
        intro r hr
        exact (List.Perm.mem_iff hw.2.1).mpr (List.mem_cons_of_mem p hr)
      have hprod := VForest.spaFold_semV S vs hw.2.2 hndvv fct fct.dim rfl hw.1 hfnd
        (by omega) hrsub
      have hmarg := margFold_sem S p vs (VForest.spaFold fct vs) fct.dim hprod.1
        hprod.2.1 hfnd hw.2.1
      have hsp : (FTree.mk fct vs).spaMsg = margFold (VForest.spaFold fct vs) vs := rfl
      rw [hsp]
      refine ⟨hmarg.1, hmarg.2.1, ?_⟩
      intro σ hσ
      rw [hmarg.2.2 σ hσ]
      have hstep1 : sumOver S vs.roots (VForest.spaFold fct vs).denote σ
          = sumOver S vs.roots
              (fun τ => fct.denote τ
                * sumOver S vs.belowVars (jointDenote vs.factors) τ) σ := by
        refine sumOver_congr S vs.roots _ _ σ ?_ hσ
        intro τ hτ
        exact hprod.2.2 τ hτ
      rw [hstep1]
      show _ = sumOver S vs.vars (jointDenote (fct :: vs.factors)) σ
      rw [sumOver_perm S (VForest.vars_perm vs) (jointDenote (fct :: vs.factors)) σ]
      have hjc : (jointDenote (fct :: vs.factors) : (V → ℕ) → ℚ)
          = fun τ => fct.denote τ * jointDenote vs.factors τ := by
        funext τ
        exact jointDenote_cons fct vs.factors τ
      rw [hjc, sumOver_append]
      have hndrb : (vs.roots ++ vs.belowVars).Nodup :=
        (List.Perm.nodup_iff (VForest.vars_perm vs)).mp hndvv
      have hdisjrb : vs.roots.Disjoint vs.belowVars := (List.nodup_append.mp hndrb).2.2
      have hinner : (fun τ => sumOver S vs.belowVars
            (fun ρ => fct.denote ρ * jointDenote vs.factors ρ) τ)
          = fun τ => fct.denote τ * sumOver S vs.belowVars (jointDenote vs.factors) τ := by
        funext τ
        refine sumOver_mul_left S vs.belowVars _ _ τ ?_
        intro x hx
        refine insensitive_denote fct x ?_
        intro hxd
        have hx2 : x ∈ p :: vs.roots := (List.Perm.mem_iff hw.2.1).mp hxd
        rcases List.mem_cons.mp hx2 with h | h
        · exact hpv (h ▸ VForest.belowVars_subsetF vs x hx)
        · exact hdisjrb h hx
      rw [hinner]

theorem VForest.spaFold_semV [DecidableEq V] (S : V → ℕ) :
    ∀ (vs : VForest V), vs.wfB S = true → vs.vars.Nodup →
      ∀ (acc : Discrete V) (D : List V), acc.dim = D → acc.shape = D.map S → D.Nodup →
        vs.roots.length < D.length → (∀ r ∈ vs.roots, r ∈ D) →
        (VForest.spaFold acc vs).dim = D ∧ (VForest.spaFold acc vs).shape = D.map S ∧
        ∀ σ : V → ℕ, (∀ w, σ w < S w) →
          (VForest.spaFold acc vs).denote σ
            = acc.denote σ * sumOver S vs.belowVars (jointDenote vs.factors) σ
  | .nil, _, _, acc, D, hdim, hsh, _, _, _ => by
      refine ⟨hdim, hsh, ?_⟩
      intro σ _
      show acc.denote σ = acc.denote σ * 1
      rw [mul_one]
  | .cons t ts, hwf, hnd, acc, D, hdim, hsh, hDnd, hlen, hroots => by
      have hwf2 : t.wfB S = true ∧ ts.wfB S = true := by
        have h := hwf
        simp only [VForest.wfB, Bool.and_eq_true] at h
        exact h
      have hndparts := List.nodup_append.mp (hnd : (t.vars ++ ts.vars).Nodup)
      have hdisj : t.vars.Disjoint ts.vars := hndparts.2.2
      have hmsg := VTree.spaMsg_semV S t hwf2.1 hndparts.1
      obtain ⟨sb, hsbshape, hsbval⟩ := hmsg.2.1
      have hrootD : t.rootVar ∈ D := hroots t.rootVar (List.mem_cons_self _ _)
      have hr1 : 1 < D.length := by
        have hc : (VForest.cons t ts).roots.length = ts.roots.length + 1 := rfl
        omega
      have hadnd : acc.dim.Nodup := by rw [hdim]; exact hDnd
      have hashape : acc.shape = acc.dim.map S := by rw [hdim, hsh]
      have hnmem : t.rootVar ∈ acc.dim := by rw [hdim]; exact hrootD
      have hr2 : 1 < acc.dim.length := by rw [hdim]; exact hr1
      have hmul := mul_msg_full S acc t.spaMsg t.rootVar sb hadnd hashape hmsg.1
        hsbshape hnmem hsbval hr2
      have hdim2 : (acc.mul t.spaMsg).dim = D := by rw [hmul.1, hdim]
      have hsh2 : (acc.mul t.spaMsg).shape = D.map S := by rw [hmul.2.1, hsh]
      have hlen2 : ts.roots.length < D.length := by
        have hc : (VForest.cons t ts).roots.length = ts.roots.length + 1 := rfl
        omega
      have hroots2 : ∀ r ∈ ts.roots, r ∈ D :=
        fun r hr => hroots r (List.mem_cons_of_mem _ hr)
      have ihres := VForest.spaFold_semV S ts hwf2.2 hndparts.2.1 (acc.mul t.spaMsg) D
        hdim2 hsh2 hDnd hlen2 hroots2
      have hfold : VForest.spaFold acc (VForest.cons t ts)
          = VForest.spaFold (acc.mul t.spaMsg) ts := rfl
      rw [hfold]
      refine ⟨ihres.1, ihres.2.1, ?_⟩
      intro σ hσ
      rw [ihres.2.2 σ hσ, hmul.2.2 σ hσ, hmsg.2.2 σ hσ]
      show acc.denote σ * sumOver S t.belowVars (jointDenote t.factors) σ
          * sumOver S ts.belowVars (jointDenote ts.factors) σ
        = acc.denote σ * sumOver S (t.belowVars ++ ts.belowVars)
            (jointDenote (t.factors ++ ts.factors)) σ
      have hFB : ∀ f ∈ t.factors, ∀ x ∈ ts.belowVars, ¬ x ∈ f.dim := by
        intro f hf x hx hxd
        have hsub := VTree.dims_withinV S t hwf2.1 f hf x hxd
        exact hdisj hsub (VForest.belowVars_subsetF ts x hx)
      have hGA : ∀ g ∈ ts.factors, ∀ x ∈ t.belowVars, ¬ x ∈ g.dim := by
        intro g hg x hx hxd
        have hsub := VForest.dims_withinVF S ts hwf2.2 g hg x hxd
        exact hdisj (VTree.belowVars_subsetV t x hx) hsub
      rw [sumOver_prod_split S t.belowVars ts.belowVars t.factors ts.factors σ hFB hGA]
      ring

end

/-- Once the accumulator of the belief product has the full shape of the
parent variable, the product over a forest of factor children keeps it. -/
theorem FForest.spaFold_shape [DecidableEq V] (S : V → ℕ) :
    ∀ (fs : FForest V) (p : V), fs.wfB S p = true → (p :: fs.vars).Nodup →
      ∀ acc : Discrete V, acc.dim = [p] → acc.shape = [S p] →
        (FForest.spaFold acc fs).shape = [S p]
  | .nil, _, _, _, _, _, hsh => hsh
  | .cons t ts, p, hwf, hnd, acc, hdim, hsh => by
      have hwf2 : t.wfB S p = true ∧ ts.wfB S p = true := by
        have h := hwf
        simp only [FForest.wfB, Bool.and_eq_true] at h
        exact h
      have hndall : (p :: (t.vars ++ ts.vars)).Nodup := hnd
      have hpv : ¬ p ∈ t.vars ++ ts.vars := List.Nodup.not_mem hndall
      have hndvv : (t.vars ++ ts.vars).Nodup := (List.nodup_cons.mp hndall).2
      have hndparts := List.nodup_append.mp hndvv
      have hndt : (p :: t.vars).Nodup :=
        List.nodup_cons.mpr ⟨fun hc => hpv (List.mem_append.mpr (Or.inl hc)), hndparts.1⟩
      have hndts : (p :: ts.vars).Nodup :=
        List.nodup_cons.mpr ⟨fun hc => hpv (List.mem_append.mpr (Or.inr hc)), hndparts.2.1⟩
      have hmsg := FTree.spaMsg_semF S t p hwf2.1 hndt
      have hmuleq := mul_rank1 acc t.spaMsg p (S p) (S p) hdim hmsg.1 hsh hmsg.2.1
      have hdim2 : (acc.mul t.spaMsg).dim = [p] := by rw [hmuleq]
      have hsh2 : (acc.mul t.spaMsg).shape = [S p] := by
        rw [hmuleq]
        simp
      exact FForest.spaFold_shape S ts p hwf2.2 hndts (acc.mul t.spaMsg) hdim2 hsh2

/-- Semantics of `VNode.belief` at the root of a tree with at least one
factor neighbor: a tensor over the query variable alone, of full shape,
whose entries are the unnormalized marginal of the joint. -/
theorem VTree.belief_sem [DecidableEq V] (S : V → ℕ) (q : V) (f₀ : FTree V) (fs : FForest V)
    (hwf : (VTree.mk q (FForest.cons f₀ fs)).wfB S = true)
    (hnd : (VTree.mk q (FForest.cons f₀ fs)).vars.Nodup) :
    (VTree.mk q (FForest.cons f₀ fs)).belief.dim = [q] ∧
    (VTree.mk q (FForest.cons f₀ fs)).belief.shape = [S q] ∧
    ∀ σ : V → ℕ, (∀ w, σ w < S w) →
      (VTree.mk q (FForest.cons f₀ fs)).belief.denote σ
        = sumOver S (VTree.mk q (FForest.cons f₀ fs)).belowVars
            (jointDenote (VTree.mk q (FForest.cons f₀ fs)).factors) σ := by
  have hwfc : (FForest.cons f₀ fs).wfB S q = true := hwf
  have hndall : (q :: (f₀.vars ++ fs.vars)).Nodup := hnd
  have hwf2 : f₀.wfB S q = true ∧ fs.wfB S q = true := by
    have h := hwfc
    simp only [FForest.wfB, Bool.and_eq_true] at h
    exact h
  have hpv : ¬ q ∈ f₀.vars ++ fs.vars := List.Nodup.not_mem hndall
  have hndvv : (f₀.vars ++ fs.vars).Nodup := (List.nodup_cons.mp hndall).2
  have hndparts := List.nodup_append.mp hndvv
  have hndt : (q :: f₀.vars).Nodup :=
    List.nodup_cons.mpr ⟨fun hc => hpv (List.mem_append.mpr (Or.inl hc)), hndparts.1⟩
  have hndts : (q :: fs.vars).Nodup :=
    List.nodup_cons.mpr ⟨fun hc => hpv (List.mem_append.mpr (Or.inr hc)), hndparts.2.1⟩
  have hdisj : f₀.vars.Disjoint fs.vars := hndparts.2.2
  have hmsg := FTree.spaMsg_semF S f₀ q hwf2.1 hndt
  have hres := FForest.spaFold_semF S fs q hwf2.2 hndts f₀.spaMsg (S q) hmsg.1 hmsg.2.1
    (Or.inl rfl)
  have hshape := FForest.spaFold_shape S fs q hwf2.2 hndts f₀.spaMsg hmsg.1 hmsg.2.1
  have hb : (VTree.mk q (FForest.cons f₀ fs)).belief = FForest.spaFold f₀.spaMsg fs := rfl
  refine ⟨by rw [hb]; exact hres.1, by rw [hb]; exact hshape, ?_⟩
  intro σ hσ
  rw [hb, hres.2.2 σ hσ, hmsg.2.2 σ hσ]
  show sumOver S f₀.vars (jointDenote f₀.factors) σ
      * sumOver S fs.vars (jointDenote fs.factors) σ
    = sumOver S (f₀.vars ++ fs.vars) (jointDenote (f₀.factors ++ fs.factors)) σ
  have hFB : ∀ f ∈ f₀.factors, ∀ x ∈ fs.vars, ¬ x ∈ f.dim := by
    intro f hf x hx hxd
    have hsub := FTree.dims_withinFT S f₀ q hwf2.1 f hf x hxd
    rcases List.mem_cons.mp hsub with h | h
    · exact (List.Nodup.not_mem hndts) (h ▸ hx)
    · exact hdisj h hx
  have hGA : ∀ g ∈ fs.factors, ∀ x ∈ f₀.vars, ¬ x ∈ g.dim := by
    intro g hg x hx hxd
    have hsub := FForest.dims_withinFF S fs q hwf2.2 g hg x hxd
    rcases List.mem_cons.mp hsub with h | h
    · exact (List.Nodup.not_mem hndt) (h ▸ hx)
    · exact hdisj hx h
  rw [sumOver_prod_split S f₀.vars fs.vars f₀.factors fs.factors σ hFB hGA]

/-- C1: on a tree-structured factor graph whose factors are Discrete —
well-formed tensors (invariant 2 of the data model), distinct variables,
at least one factor at the query node `q` — `sum_product` returns the
exact normalized marginal of `q` under the joint distribution defined by
the product of all factors: a tensor over `q` alone, with one entry per
state of `q`, each entry being the marginal sum of the joint at that
state divided by the full partition sum. -/
theorem C1_sum_product_exact_marginal [DecidableEq V] (S : V → ℕ) (q : V) (f₀ : FTree V)
    (fs : FForest V) (σ₀ : V → ℕ)
    (hwf : (VTree.mk q (FForest.cons f₀ fs)).wfB S = true)
    (hnd : (VTree.mk q (FForest.cons f₀ fs)).vars.Nodup)
    (hσ₀ : ∀ w, σ₀ w < S w) :
    (VTree.mk q (FForest.cons f₀ fs)).sum_product.dim = [q] ∧
    (VTree.mk q (FForest.cons f₀ fs)).sum_product.shape = [S q] ∧
    ∀ i, i < S q →
      (VTree.mk q (FForest.cons f₀ fs)).sum_product.pmf [i]
        = sumOver S (VTree.mk q (FForest.cons f₀ fs)).belowVars
            (jointDenote (VTree.mk q (FForest.cons f₀ fs)).factors)
            (Function.update σ₀ q i)
          / sumOver S (q :: (VTree.mk q (FForest.cons f₀ fs)).belowVars)
              (jointDenote (VTree.mk q (FForest.cons f₀ fs)).factors) σ₀ := by
  obtain ⟨hdim, hsh, hden⟩ := VTree.belief_sem S q f₀ fs hwf hnd
  have hupdB : ∀ i, i < S q → ∀ w, Function.update σ₀ q i w < S w := by
    intro i hi w
    by_cases hw : w = q
    · subst hw
      rw [Function.update_same]
      exact hi
    · rw [Function.update_noteq hw]
      exact hσ₀ w
  have hpm : ∀ i, i < S q →
      (VTree.mk q (FForest.cons f₀ fs)).belief.pmf [i]
        = (VTree.mk q (FForest.cons f₀ fs)).belief.denote (Function.update σ₀ q i) := by
    intro i hi
    show _ = (VTree.mk q (FForest.cons f₀ fs)).belief.bval
        ((VTree.mk q (FForest.cons f₀ fs)).belief.dim.map (Function.update σ₀ q i))
    rw [hdim]
    simp only [List.map_cons, List.map_nil, Function.update_same]
    show _ = (VTree.mk q (FForest.cons f₀ fs)).belief.pmf
        (broadcastIx (VTree.mk q (FForest.cons f₀ fs)).belief.shape [i])
    rw [hsh]
    by_cases h1 : S q = 1
    · have h0 : i = 0 := by omega
      subst h0
      simp [broadcastIx, h1]
    · simp [broadcastIx, h1]
  have htot : npTotal (VTree.mk q (FForest.cons f₀ fs)).belief.shape
      (VTree.mk q (FForest.cons f₀ fs)).belief.pmf
      = sumOver S (q :: (VTree.mk q (FForest.cons f₀ fs)).belowVars)
          (jointDenote (VTree.mk q (FForest.cons f₀ fs)).factors) σ₀ := by
    rw [hsh, npTotal_rank1]
    show _ = ((List.range (S q)).map fun i =>
        sumOver S (VTree.mk q (FForest.cons f₀ fs)).belowVars
          (jointDenote (VTree.mk q (FForest.cons f₀ fs)).factors)
          (Function.update σ₀ q i)).sum
    refine congrArg List.sum (List.map_congr_left ?_)
    intro i hi
    have hi' : i < S q := List.mem_range.mp hi
    rw [hpm i hi', hden (Function.update σ₀ q i) (hupdB i hi')]
  refine ⟨hdim, hsh, ?_⟩
  intro i hi
  show (VTree.mk q (FForest.cons f₀ fs)).belief.pmf [i]
      / npTotal (VTree.mk q (FForest.cons f₀ fs)).belief.shape
          (VTree.mk q (FForest.cons f₀ fs)).belief.pmf = _
  rw [hpm i hi, hden (Function.update σ₀ q i) (hupdB i hi), htot]

/-- Instantiation of the exactness theorem on the concrete pair graph
`c1Tree` with two states per variable. -/
theorem C1_sum_product_exact_marginal_witness :
    c1Tree.sum_product.dim = [0] ∧ c1Tree.sum_product.shape = [2] ∧
    ∀ i, i < 2 →
      c1Tree.sum_product.pmf [i]
        = sumOver (fun _ => 2) c1Tree.belowVars (jointDenote c1Tree.factors)
            (Function.update (fun _ => 0) 0 i)
          / sumOver (fun _ => 2) (0 :: c1Tree.belowVars) (jointDenote c1Tree.factors)
              (fun _ => 0) :=
  C1_sum_product_exact_marginal (fun _ => 2) 0
    (FTree.mk c1Fct (VForest.cons (VTree.mk 1 FForest.nil) VForest.nil)) FForest.nil
    (fun _ => 0) (by decide) (by decide) (fun _ => Nat.succ_pos 1)

/-! ## The graph assembly path: `set_edge` and the message lookups -/

/-- After `set_edges`, a pair that was set (in either orientation, with
the default `init=None`) carries exactly the attribute dict
`{'msg': None}`. -/
theorem set_edges_msg [DecidableEq N] (es : List (N × N)) :
    ∀ (g0 : N → N → List (String × Option M)) (a b : N),
      (g0 a b = [("msg", none)] ∨ (a, b) ∈ es ∨ (b, a) ∈ es) →
      FactorGraph.set_edges g0 es a b = [("msg", (none : Option M))] := by
  induction es with
  | nil =>
      intro g0 a b h
      rcases h with h | h | h
      · exact h
      · exact absurd h (List.not_mem_nil _)
      · exact absurd h (List.not_mem_nil _)
  | cons e tl ih =>
      intro g0 a b h
      show FactorGraph.set_edges (FactorGraph.set_edge g0 e.1 e.2 none) tl a b = _
      refine ih (FactorGraph.set_edge g0 e.1 e.2 none) a b ?_
      rcases h with h | h | h
      · left
        by_cases hc : (a = e.1 ∧ b = e.2) ∨ (a = e.2 ∧ b = e.1)
        · simp [FactorGraph.set_edge, hc]
        · simp only [FactorGraph.set_edge, if_neg hc]
          exact h
      · rcases List.mem_cons.mp h with he | htl
        · left
          have ha : a = e.1 := by rw [← he]
          have hb : b = e.2 := by rw [← he]
          simp [FactorGraph.set_edge, ha, hb]
        · right; left; exact htl
      · rcases List.mem_cons.mp h with he | htl
        · left
          have ha : b = e.1 := by rw [← he]
          have hb : a = e.2 := by rw [← he]
          simp [FactorGraph.set_edge, ha, hb]
        · right; right; exact htl

/-- C2: a graph assembled through `FactorGraph.set_edge` / `set_edges`
stores, for each direction of each edge, an attribute dict holding only
the key `'msg'` and no `'object'` entry; hence `VNode.belief` and
`VNode.spa` (on an unobserved node with at least one neighbor), which
both read `graph[n][self]['object']`, fail with `KeyError` on every such
graph. -/
theorem C2_set_edge_lookups_keyerror [DecidableEq N]
    (g0 : N → N → List (String × Option M)) (es : List (N × N)) (self : N)
    (nbrs : List N) (hne : nbrs ≠ [])
    (hes : ∀ n ∈ nbrs, (n, self) ∈ es ∨ (self, n) ∈ es) :
    (∀ (g : N → N → List (String × Option M)) (s t : N) (i : Option M),
        FactorGraph.set_edge g s t i s t = [("msg", i)] ∧
        FactorGraph.set_edge g s t i t s = [("msg", i)]) ∧
    VNode.belief_lookups nbrs (fun n => FactorGraph.set_edges g0 es n self)
      = .error "KeyError: object" ∧
    VNode.spa_lookups false nbrs (fun n => FactorGraph.set_edges g0 es n self)
      = .error "KeyError: object" := by
  have hms : ¬ ("msg" : String) = "object" := by decide
  have hget : ∀ i : Option M, dictGet [("msg", i)] "object" = .error "KeyError: object" := by
    intro i
    simp [dictGet, List.find?, hms]
  obtain ⟨n, tl, rfl⟩ := List.exists_cons_of_ne_nil hne
  have hattr : FactorGraph.set_edges g0 es n self = [("msg", (none : Option M))] :=
    set_edges_msg es g0 n self (Or.inr (hes n (List.mem_cons_self n tl)))
  have hmapM : (n :: tl).mapM (fun m => dictGet (FactorGraph.set_edges g0 es m self) "object")
      = (.error "KeyError: object" : Except String (List (Option M))) := by
    rw [List.mapM_cons]
    rw [hattr, hget]
    rfl
  refine ⟨?_, ?_, ?_⟩
  · intro g s t i
    constructor <;> simp [FactorGraph.set_edge]
  · show (n :: tl).mapM (fun m => dictGet (FactorGraph.set_edges g0 es m self) "object") = _
    exact hmapM
  · show (n :: tl).mapM (fun m => dictGet (FactorGraph.set_edges g0 es m self) "object") = _
    exact hmapM

/-- Instantiation on the two-node graph with the single edge `(1, 0)`
added through `set_edges` and queried from node `0`. -/
theorem C2_set_edge_lookups_keyerror_witness :
    (∀ (g : ℕ → ℕ → List (String × Option ℕ)) (s t : ℕ) (i : Option ℕ),
        FactorGraph.set_edge g s t i s t = [("msg", i)] ∧
        FactorGraph.set_edge g s t i t s = [("msg", i)]) ∧
    VNode.belief_lookups [1]
        (fun n => FactorGraph.set_edges (fun _ _ => ([] : List (String × Option ℕ)))
          [(1, 0)] n 0)
      = .error "KeyError: object" ∧
    VNode.spa_lookups false [1]
        (fun n => FactorGraph.set_edges (fun _ _ => ([] : List (String × Option ℕ)))
          [(1, 0)] n 0)
      = .error "KeyError: object" :=
  C2_set_edge_lookups_keyerror (fun _ _ => ([] : List (String × Option ℕ))) [(1, 0)] 0 [1]
    (by decide) (by decide)

/-! ## Marginalization over unknown dims -/

/-- Entries of `enumFrom` carry elements of the underlying list. -/
theorem mem_enumFrom_snd {α : Type} :
    ∀ (l : List α) (n : ℕ) (p : ℕ × α), p ∈ l.enumFrom n → p.2 ∈ l
  | [], _, _, h => absurd h (List.not_mem_nil _)
  | x :: tl, n, p, h => by
      rcases List.mem_cons.mp h with h | h
      · rw [h]
        exact List.mem_cons_self x tl
      · exact List.mem_cons_of_mem x (mem_enumFrom_snd tl (n + 1) p h)

/-- The axis tuple of `marginalize` only sees the dims the tensor
carries: restricting the requested dims to `adim` changes nothing. -/
theorem axisList_filter_known [DecidableEq V] (adim dims : List V) :
    axisList adim (dims.filter fun d => d ∈ adim) = axisList adim dims := by
  unfold axisList
  congr 1
  refine List.filter_congr ?_
  intro p hp
  have hmem : p.2 ∈ adim := mem_enumFrom_snd adim 0 p hp
  rw [decide_eq_decide]
  constructor
  · intro h
    exact (List.mem_filter.mp h).1
  · intro h
    exact List.mem_filter.mpr ⟨h, by simpa using hmem⟩

/-- The retained dims of `marginalize` are likewise unchanged by
restricting the requested dims to the carried ones. -/
theorem filter_not_mem_filter [DecidableEq V] (adim dims : List V) :
    (adim.filter fun d => ¬ d ∈ dims.filter fun x => x ∈ adim)
      = adim.filter fun d => ¬ d ∈ dims := by
  refine List.filter_congr ?_
  intro d hd
  rw [decide_eq_decide]
  constructor
  · intro h hc
    exact h (List.mem_filter.mpr ⟨hc, by simpa using hd⟩)
  · intro h hc
    exact h (List.mem_filter.mp hc).1

/-- C5 (amended): `marginalize` never fails — a requested dim not in
`a.dim` is silently ignored (the call equals the call on the known dims
only); the remaining dims are preserved in their original order, and
with `normalize=true` the result is the unnormalized sum divided by its
total. -/
theorem C5_marginalize_ignores_unknown_dims [DecidableEq V] (a : Discrete V)
    (dims : List V) (normalize : Bool) :
    a.marginalize dims normalize
        = a.marginalize (dims.filter fun d => d ∈ a.dim) normalize ∧
    (a.marginalize dims normalize).dim = a.dim.filter (fun d => ¬ d ∈ dims) ∧
    ∀ ix, (a.marginalize dims true).pmf ix
        = (a.marginalize dims false).pmf ix
          / npTotal (a.marginalize dims false).shape (a.marginalize dims false).pmf := by
  refine ⟨?_, rfl, fun ix => rfl⟩
  simp only [Discrete.marginalize]
  rw [axisList_filter_known, filter_not_mem_filter]

/-- Marginalizing `c5A` over the unknown dim `5` raises nothing: it sums
no axis at all and returns a tensor with the dims and shape intact,
refuting the specified *UnknownDim* failure. -/
theorem C5_no_unknown_dim_error_counterexample :
    axisList c5A.dim [5] = [] ∧
    (c5A.marginalize [5] true).dim = [0, 1] ∧
    (c5A.marginalize [5] true).shape = [2, 2] := by
  refine ⟨by decide, by decide, rfl⟩

/-! ## Unity as multiplicative identity -/

/-- Broadcasting a shape against all-ones of the same rank returns it. -/
theorem bshape_replicate_one :
    ∀ s : List ℕ, bshape s (List.replicate s.length 1) = s
  | [] => rfl
  | x :: tl => by
      show (if x = 1 then 1 else x) :: bshape tl (List.replicate tl.length 1) = x :: tl
      rw [bshape_replicate_one tl]
      by_cases hx : x = 1
      · rw [if_pos hx, hx]
      · rw [if_neg hx]

/-- Index broadcasting is idempotent. -/
theorem broadcastIx_idem : ∀ s ix : List ℕ, broadcastIx s (broadcastIx s ix) = broadcastIx s ix
  | [], _ => rfl
  | _ :: _, [] => rfl
  | x :: tl, i :: it => by
      have ih := broadcastIx_idem tl it
      simp only [broadcastIx, List.zipWith_cons_cons] at ih ⊢
      rw [ih]
      by_cases hx : x = 1
      · simp [hx]
      · simp [hx]

/-- C6: multiplying a random variable of either kind with the unity
element of its own dim tuple gives back a value `==`-equal to it: the
Discrete product against the all-ones singleton tensor broadcasts to the
original entries, the Gaussian product adds the zero precision matrix
and zero precision-mean. -/
theorem C6_unity_is_identity [DecidableEq V] (a : Discrete V) (g : Gaussian V)
    (hlen : a.shape.length = a.dim.length) :
    (a.mul (Discrete.unity a.dim)).eqRV a ∧ (g.mul (Gaussian.unity g.dim)).eqRV g := by
  have hres : a.mul (Discrete.unity a.dim)
      = ⟨bshape a.shape (Discrete.unity a.dim).shape,
         fun ix => a.bval ix * (Discrete.unity a.dim).bval ix, a.dim⟩ := by
    simp [Discrete.mul, Discrete.mulFull, Discrete.unity]
  have hshape : bshape a.shape (Discrete.unity a.dim).shape = a.shape := by
    show bshape a.shape (List.replicate a.dim.length 1) = a.shape
    rw [← hlen]
    exact bshape_replicate_one a.shape
  refine ⟨⟨?_, ?_⟩, rfl, ?_, ?_, rfl⟩
  · intro ix _
    rw [hres]
    show (fun jx => a.bval jx * (Discrete.unity a.dim).bval jx)
        (broadcastIx (bshape a.shape (Discrete.unity a.dim).shape) ix) = a.bval ix
    rw [hshape]
    show a.bval (broadcastIx a.shape ix) * 1 = a.bval ix
    rw [mul_one]
    show a.pmf (broadcastIx a.shape (broadcastIx a.shape ix)) = a.pmf (broadcastIx a.shape ix)
    rw [broadcastIx_idem]
  · rw [hres]
  · intro i j _ _
    show g.W i j + 0 = g.W i j
    rw [add_zero]
  · intro i _
    show g.Wm i + 0 = g.Wm i
    rw [add_zero]

/-- Instantiation of the identity law on the one-dimensional Discrete
`c6A` and Gaussian `c6G`. -/
theorem C6_unity_is_identity_witness :
    (c6A.mul (Discrete.unity c6A.dim)).eqRV c6A ∧
    (c6G.mul (Gaussian.unity c6G.dim)).eqRV c6G :=
  C6_unity_is_identity c6A c6G rfl

/-- C7 (amended): the per-edge state created by adding an edge with no
explicit init holds `None` in both directed message slots — not unity —
and `set_edge` stores as edge attributes exactly `{'msg': None}`. -/
theorem C7_default_edge_slots_none [DecidableEq N] (s t : N)
    (g : N → N → List (String × Option M)) :
    (Edge.make s t (none : Option M)).m01 = none ∧
    (Edge.make s t (none : Option M)).m10 = none ∧
    FactorGraph.set_edge g s t (none : Option M) s t = [("msg", none)] ∧
    FactorGraph.set_edge g s t (none : Option M) t s = [("msg", none)] := by
  refine ⟨rfl, rfl, ?_, ?_⟩ <;> simp [FactorGraph.set_edge]

/-- An edge between the nodes `0` and `1` added with the default init:
its forward slot holds `None`, not the unity element over the adjacent
variable node. -/
theorem C7_default_edge_slots_none_counterexample :
    (Edge.make (0 : ℕ) 1 (none : Option (Discrete ℕ))).m01 = none ∧
    ∀ u : Discrete ℕ, (Edge.make (0 : ℕ) 1 (none : Option (Discrete ℕ))).m01 ≠ some u := by
  refine ⟨rfl, ?_⟩
  intro u
  simp [Edge.make]

/-- C8: `Discrete.log` never returns the elementwise logarithm: its body
reads the attribute `self.value`, which class `Discrete` does not
define, so every call fails with `AttributeError` — for positive pmfs as
much as for any other. -/
theorem C8_log_always_attribute_error (a : Discrete V) :
    a.log = Except.error "AttributeError: Discrete object has no attribute value" := rfl

/-! ## Mutation of the shorter multiplication operand -/

/-- C9 (amended): `__mul__` with dim tuples of different lengths mutates
the operand with the shorter tuple in place — afterwards it is the
`_expand` of the original to the longer operand's dim tuple, so its dim
tuple equals the longer operand's — while the longer operand is
untouched; with equal lengths both operands are left unchanged.  (The
expanded pmf keeps the original sizes on the axes both operands share,
so its shape is in general *not* the longer operand's shape.) -/
theorem C9_mul_mutates_shorter_operand [DecidableEq V] (a b : Discrete V)
    (hlt : b.dim.length < a.dim.length) :
    (a.mulFull b).2.1 = a ∧
    (a.mulFull b).2.2 = b.expand a.dim a.shape ∧
    ((a.mulFull b).2.2).dim = a.dim ∧
    ∀ c d : Discrete V, c.dim.length = d.dim.length →
      (c.mulFull d).2.1 = c ∧ (c.mulFull d).2.2 = d := by
  have hnlt : ¬ a.dim.length < b.dim.length := by omega
  refine ⟨?_, ?_, ?_, ?_⟩
  · simp [Discrete.mulFull, hnlt]
  · simp [Discrete.mulFull, hlt]
  · simp [Discrete.mulFull, hlt, Discrete.expand]
  · intro c d hcd
    have h1 : ¬ c.dim.length < d.dim.length := by omega
    have h2 : ¬ d.dim.length < c.dim.length := by omega
    constructor <;> simp [Discrete.mulFull, h1, h2]

/-- Instantiation of the mutation law on `c9B * unity([0])`. -/
theorem C9_mul_mutates_shorter_operand_witness :
    (c9B.mulFull (Discrete.unity [0])).2.1 = c9B ∧
    (c9B.mulFull (Discrete.unity [0])).2.2 = (Discrete.unity [0]).expand c9B.dim c9B.shape ∧
    ((c9B.mulFull (Discrete.unity [0])).2.2).dim = c9B.dim ∧
    ∀ c d : Discrete ℕ, c.dim.length = d.dim.length →
      (c.mulFull d).2.1 = c ∧ (c.mulFull d).2.2 = d :=
  C9_mul_mutates_shorter_operand c9B (Discrete.unity [0]) (by decide)

/-- The mutated operand `unity([0])` expanded against the `[2, 2]`-shaped
`c9B` gets shape `[2, 1]`: the retained axis keeps its own size 1, so
the pmf is *not* tiled to the longer operand's shape `[2, 2]`. -/
theorem C9_not_tiled_to_longer_shape_counterexample :
    ((c9B.mulFull (Discrete.unity [0])).2.2).dim = [1, 0] ∧
    ((c9B.mulFull (Discrete.unity [0])).2.2).shape = [2, 1] ∧
    c9B.shape = [2, 2] := by
  refine ⟨by decide, by decide, rfl⟩

/-- C10: `VNode.argmax` hands its own variable to `Discrete.argmax`,
which marginalizes that variable *away*; on a one-dimensional belief the
result is a scalar, whose flat argmax is the index 0 — whatever the
belief's entries are. -/
theorem C10_vnode_argmax_always_zero [DecidableEq V] (v : V) (b : Discrete V) (s : ℕ)
    (hdim : b.dim = [v]) (hsh : b.shape = [s]) :
    VNode.argmax v b = Sum.inr 0 := by
  have hax : axisList b.dim [v] = [0] := by
    rw [hdim, axisList_cons, axisList_nil]
    simp
  have hm : (b.marginalize [v] true).shape = [] := by
    show (npSumAxes b.shape b.pmf (axisList b.dim [v])).1 = []
    rw [hax, hsh]
    rfl
  have h0 : VNode.argmax v b
      = Sum.inr (argmaxList ((allIndices (b.marginalize [v] true).shape).map
          (b.marginalize [v] true).pmf)) := rfl
  rw [h0, hm]
  rfl

/-- Instantiation on the belief `[0.25, 0.75]` of variable node `5`: the
mode is at index 1, yet `VNode.argmax` returns 0. -/
theorem C10_vnode_argmax_always_zero_witness :
    VNode.argmax 5 c10B = Sum.inr 0 :=
  C10_vnode_argmax_always_zero 5 c10B 2 rfl rfl

/-- C4: on the tensor `c4A`, `argmax(x0)` as coded sums the axis of `x0`
*out* (leaving `[0.65, 0.3]`, flat argmax 0) instead of retaining it:
the specified mode of the marginal of `x0` (computed by the spec-side
model, marginal `[0.4, 0.55]`) is 1.  The `v=None` branch does return
the multi-index of the global maximum. -/
theorem C4_argmax_wrong_axis :
    c4A.argmax (some 0) = Sum.inr 0 ∧
    Discrete.argmaxSpecModel c4A 0 = 1 ∧
    c4A.argmax none = Sum.inl [0, 0] := by
  have hr2 : List.range 2 = [0, 1] := by decide
  have hI2 : allIndices [2] = [[0], [1]] := by decide
  have hI22 : allIndices [2, 2] = [[0, 0], [0, 1], [1, 0], [1, 1]] := by decide
  have hax0 : axisList ([0, 1] : List ℕ) [0] = [0] := by decide
  have hax1 : axisList ([0, 1] : List ℕ) [1] = [1] := by decide
  refine ⟨?_, ?_, ?_⟩
  · show Sum.inr (argmaxList ((allIndices (c4A.marginalize [0] true).shape).map
        (c4A.marginalize [0] true).pmf)) = Sum.inr 0
    have hsh : (c4A.marginalize [0] true).shape = [2] := by decide
    rw [hsh, hI2]
    have hv0 : (c4A.marginalize [0] true).pmf [0] = 13/19 := by
      show (npSumAxes c4A.shape c4A.pmf (axisList c4A.dim [0])).2 [0]
          / npTotal (npSumAxes c4A.shape c4A.pmf (axisList c4A.dim [0])).1
              (npSumAxes c4A.shape c4A.pmf (axisList c4A.dim [0])).2 = 13/19
      norm_num [c4A, c4P, npSumAxes, npSumAxis, npTotal, hax0, hr2, hI2,
        List.insertIdx_zero, List.getD_cons_zero]
    have hv1 : (c4A.marginalize [0] true).pmf [1] = 6/19 := by
      show (npSumAxes c4A.shape c4A.pmf (axisList c4A.dim [0])).2 [1]
          / npTotal (npSumAxes c4A.shape c4A.pmf (axisList c4A.dim [0])).1
              (npSumAxes c4A.shape c4A.pmf (axisList c4A.dim [0])).2 = 6/19
      norm_num [c4A, c4P, npSumAxes, npSumAxis, npTotal, hax0, hr2, hI2,
        List.insertIdx_zero, List.getD_cons_zero]
    rw [List.map_cons, List.map_cons, List.map_nil, hv0, hv1]
    norm_num [argmaxList, argmaxAux]
  · have hflt : (c4A.dim.filter fun d => ¬ d = 0) = [1] := by decide
    show argmaxList ((allIndices
        (c4A.marginalize (c4A.dim.filter fun d => ¬ d = 0) true).shape).map
        (c4A.marginalize (c4A.dim.filter fun d => ¬ d = 0) true).pmf) = 1
    rw [hflt]
    have hsh : (c4A.marginalize [1] true).shape = [2] := by decide
    rw [hsh, hI2]
    have hw0 : (c4A.marginalize [1] true).pmf [0] = 8/19 := by
      show (npSumAxes c4A.shape c4A.pmf (axisList c4A.dim [1])).2 [0]
          / npTotal (npSumAxes c4A.shape c4A.pmf (axisList c4A.dim [1])).1
              (npSumAxes c4A.shape c4A.pmf (axisList c4A.dim [1])).2 = 8/19
      norm_num [c4A, c4P, npSumAxes, npSumAxis, npTotal, hax1, hr2, hI2,
        List.insertIdx_zero, List.insertIdx_succ_cons, List.getD_cons_zero,
        List.getD_cons_succ]
    have hw1 : (c4A.marginalize [1] true).pmf [1] = 11/19 := by
      show (npSumAxes c4A.shape c4A.pmf (axisList c4A.dim [1])).2 [1]
          / npTotal (npSumAxes c4A.shape c4A.pmf (axisList c4A.dim [1])).1
              (npSumAxes c4A.shape c4A.pmf (axisList c4A.dim [1])).2 = 11/19
      norm_num [c4A, c4P, npSumAxes, npSumAxis, npTotal, hax1, hr2, hI2,
        List.insertIdx_zero, List.insertIdx_succ_cons, List.getD_cons_zero,
        List.getD_cons_succ]
    rw [List.map_cons, List.map_cons, List.map_nil, hw0, hw1]
    norm_num [argmaxList, argmaxAux]
  · show Sum.inl ((allIndices [2, 2]).getD
        (argmaxList ((allIndices [2, 2]).map c4A.pmf)) [])
        = Sum.inl ([0, 0] : List ℕ)
    rw [hI22]
    norm_num [c4A, c4P, argmaxList, argmaxAux]

/-- C3: on the pair graph with factor `c3Fct` rooted at the query
variable `0`, the forward `mpa` pass records for the back-tracked
variable `1` the bare scalar `argmax` of the `1`-summed-out product (the
value `1`), not a table indexable by the assigned value of the query
variable; the back-tracking loop `track[k] = v.record[u][k]` copies that
scalar and `track[0]` comes from `VNode.argmax` (always `0`), so the
returned assignment `x0 = 0, x1 = 1` has strictly smaller joint
probability than the MAP assignment `x0 = 1, x1 = 0`. -/
theorem C3_backtracking_copies_scalar_not_map :
    (FNode.mpa c3Fct [(Discrete.unity [1], 1)]).1 = [(1, Sum.inr 1)] ∧
    VNode.argmax 0 (FNode.mpa c3Fct [(Discrete.unity [1], 1)]).2 = Sum.inr 0 ∧
    c3TrackCode 0 = 0 ∧ c3TrackCode 1 = 1 ∧
    jointDenote [c3Fct] c3TrackCode < jointDenote [c3Fct] c3TrackMap := by
  have hr2 : List.range 2 = [0, 1] := by decide
  have hI2 : allIndices [2] = [[0], [1]] := by decide
  refine ⟨?_, ?_, rfl, rfl, ?_⟩
  · have hA : (FNode.mpa c3Fct [(Discrete.unity [1], 1)]).1
        = [(1, (c3Fct.mul (Discrete.unity [1])).argmax (some 1))] := rfl
    rw [hA]
    have hsh : ((c3Fct.mul (Discrete.unity [1])).marginalize [1] true).shape = [2] := by
      decide
    have hargm : (c3Fct.mul (Discrete.unity [1])).argmax (some 1) = Sum.inr 1 := by
      show Sum.inr (argmaxList ((allIndices
          ((c3Fct.mul (Discrete.unity [1])).marginalize [1] true).shape).map
          ((c3Fct.mul (Discrete.unity [1])).marginalize [1] true).pmf)) = Sum.inr 1
      rw [hsh, hI2]
      have hu0 : ((c3Fct.mul (Discrete.unity [1])).marginalize [1] true).pmf [0]
          = 2/5 := by
        show (npSumAxes (c3Fct.mul (Discrete.unity [1])).shape
            (c3Fct.mul (Discrete.unity [1])).pmf
            (axisList (c3Fct.mul (Discrete.unity [1])).dim [1])).2 [0]
            / npTotal (npSumAxes (c3Fct.mul (Discrete.unity [1])).shape
                (c3Fct.mul (Discrete.unity [1])).pmf
                (axisList (c3Fct.mul (Discrete.unity [1])).dim [1])).1
              (npSumAxes (c3Fct.mul (Discrete.unity [1])).shape
                (c3Fct.mul (Discrete.unity [1])).pmf
                (axisList (c3Fct.mul (Discrete.unity [1])).dim [1])).2 = 2/5
        norm_num [Discrete.mul, Discrete.mulFull, Discrete.expand, Discrete.unity,
          Discrete.bval, diffList, repsList, bshape, broadcastIx, c3Fct, c3P,
          npSumAxes, npSumAxis, npTotal, axisList, allIndices, List.enum,
          List.enumFrom, hr2, hI2, List.insertIdx_zero, List.insertIdx_succ_cons,
          List.getD_cons_zero, List.getD_cons_succ]
      have hu1 : ((c3Fct.mul (Discrete.unity [1])).marginalize [1] true).pmf [1]
          = 3/5 := by
        show (npSumAxes (c3Fct.mul (Discrete.unity [1])).shape
            (c3Fct.mul (Discrete.unity [1])).pmf
            (axisList (c3Fct.mul (Discrete.unity [1])).dim [1])).2 [1]
            / npTotal (npSumAxes (c3Fct.mul (Discrete.unity [1])).shape
                (c3Fct.mul (Discrete.unity [1])).pmf
                (axisList (c3Fct.mul (Discrete.unity [1])).dim [1])).1
              (npSumAxes (c3Fct.mul (Discrete.unity [1])).shape
                (c3Fct.mul (Discrete.unity [1])).pmf
                (axisList (c3Fct.mul (Discrete.unity [1])).dim [1])).2 = 3/5
        norm_num [Discrete.mul, Discrete.mulFull, Discrete.expand, Discrete.unity,
          Discrete.bval, diffList, repsList, bshape, broadcastIx, c3Fct, c3P,
          npSumAxes, npSumAxis, npTotal, axisList, allIndices, List.enum,
          List.enumFrom, hr2, hI2, List.insertIdx_zero, List.insertIdx_succ_cons,
          List.getD_cons_zero, List.getD_cons_succ]
      rw [List.map_cons, List.map_cons, List.map_nil, hu0, hu1]
      norm_num [argmaxList, argmaxAux]
    rw [hargm]
  · have hbd : ((FNode.mpa c3Fct [(Discrete.unity [1], 1)]).2).dim = [0] := by decide
    have hbs : ((FNode.mpa c3Fct [(Discrete.unity [1], 1)]).2).shape = [2] := by decide
    have hax : axisList ((FNode.mpa c3Fct [(Discrete.unity [1], 1)]).2).dim [0] = [0] := by
      rw [hbd, axisList_cons, axisList_nil]
      simp
    have hmsh : (((FNode.mpa c3Fct [(Discrete.unity [1], 1)]).2).marginalize [0] true).shape
        = [] := by
      show (npSumAxes ((FNode.mpa c3Fct [(Discrete.unity [1], 1)]).2).shape
          ((FNode.mpa c3Fct [(Discrete.unity [1], 1)]).2).pmf
          (axisList ((FNode.mpa c3Fct [(Discrete.unity [1], 1)]).2).dim [0])).1 = []
      rw [hax, hbs]
      rfl
    have h0 : VNode.argmax 0 (FNode.mpa c3Fct [(Discrete.unity [1], 1)]).2
        = Sum.inr (argmaxList ((allIndices
            (((FNode.mpa c3Fct [(Discrete.unity [1], 1)]).2).marginalize [0] true).shape).map
            (((FNode.mpa c3Fct [(Discrete.unity [1], 1)]).2).marginalize [0] true).pmf)) :=
      rfl
    rw [h0, hmsh]
    rfl
  · norm_num [jointDenote, Discrete.denote, Discrete.bval, broadcastIx, c3Fct, c3P,
      c3TrackCode, c3TrackMap]

end Fglib
